import Mathlib

/-!
Verification development for the tantivy columnar storage engine and the
alphanumeric token filter.

The repository ships the columnar test-suite (`columnar/src/tests.rs`) and the
tokenizer filter (`src/tokenizer/alphanum_only.rs`).  The columnar
implementation itself (writer, serializer, reader, merge engine) is not part of
the shipped sources, so it is modelled here from the specification (`spec.md`,
sections 3, 4 and 8), at the observational granularity the spec describes:
per-column type and cardinality inference, sorted dictionary encoding,
null-index codecs (required / optional / multivalued), row permutation, and
stack merging.  Every modelled definition is validated below against the
concrete scenarios of the shipped tests.  The token filter is embedded
directly from its Rust source.
-/

/-! ### Value model (spec section 3 and 4.1) -/

/-- Modelled from the spec: the tagged union `U64 | I64 | F64` of numerical
values (section 4.1).  `f64` payloads are modelled as exact rationals; the
spec's documented coercion policy is modelled as the exact embedding. -/
inductive NumericalValue where
  | u64 (v : Nat)
  | i64 (v : Int)
  | f64 (v : Rat)
deriving DecidableEq, Repr

/-- Modelled from the spec: the closed enum of column type categories
(section 3, "Type-categories are a closed enum"). -/
inductive ColumnTypeCategory where
  | bool
  | str
  | bytes
  | numerical
  | ipAddr
  | dateTime
deriving DecidableEq, Repr

/-- Modelled from the spec: stable tag bytes for the category, used to sort
the column directory (section 4.6 and 6). -/
def ColumnTypeCategory.tag : ColumnTypeCategory → Nat
  | .bool => 0
  | .str => 1
  | .bytes => 2
  | .numerical => 3
  | .ipAddr => 4
  | .dateTime => 5

/-- Modelled from the spec: a recordable value (section 4.5).  String and
bytes payloads are their byte sequences; ip addresses are their 128-bit value;
datetimes are seconds since epoch. -/
inductive ColumnValue where
  | str (t : List Nat)
  | bytes (t : List Nat)
  | numerical (n : NumericalValue)
  | bool (b : Bool)
  | ipAddr (v : Nat)
  | dateTime (v : Int)
deriving DecidableEq, Repr

def ColumnValue.category : ColumnValue → ColumnTypeCategory
  | .str _ => .str
  | .bytes _ => .bytes
  | .numerical _ => .numerical
  | .bool _ => .bool
  | .ipAddr _ => .ipAddr
  | .dateTime _ => .dateTime

/-! ### Numerical type inference and coercion (spec section 4.1) -/

inductive NumericalType where
  | i64
  | u64
  | f64
deriving DecidableEq, Repr

def i64MaxInt : Int := 9223372036854775807

def i64MinInt : Int := -9223372036854775808

def NumericalValue.isF64 : NumericalValue → Bool
  | .f64 _ => true
  | _ => false

/-- Whether a numerical value is exactly representable as a signed 64-bit
integer. -/
def NumericalValue.fitsI64 : NumericalValue → Bool
  | .u64 v => decide ((v : Int) ≤ i64MaxInt)
  | .i64 _ => true
  | .f64 _ => false

/-- Whether a numerical value is exactly representable as an unsigned 64-bit
integer. -/
def NumericalValue.fitsU64 : NumericalValue → Bool
  | .u64 _ => true
  | .i64 v => decide (0 ≤ v)
  | .f64 _ => false

/-- Modelled from the spec: the stored numerical type of a column, inferred
from all observed values (section 4.1): any float forces `F64`; else a column
whose values all fit in `i64` is stored `I64` (the tests pin homogeneous small
`U64` input to an `I64` column); else all-`u64`-fitting gives `U64`; mixed
signed and unsigned extremes widen to `F64`. -/
def inferNumericalType (vals : List NumericalValue) : NumericalType :=
  if vals.any NumericalValue.isF64 then .f64
  else if vals.all NumericalValue.fitsI64 then .i64
  else if vals.all NumericalValue.fitsU64 then .u64
  else .f64

/-- Modelled from the spec: coercion of an observed numerical value into the
column's stored numerical type (section 4.1; the tests compare read values
through this coercion). -/
def coerceNumerical : NumericalType → NumericalValue → NumericalValue
  | .i64, .u64 v => .i64 v
  | .i64, .i64 v => .i64 v
  | .i64, .f64 _ => .i64 0
  | .u64, .u64 v => .u64 v
  | .u64, .i64 v => .u64 v.toNat
  | .u64, .f64 _ => .u64 0
  | .f64, .u64 v => .f64 v
  | .f64, .i64 v => .f64 v
  | .f64, .f64 q => .f64 q

/-- The numeric denotation of a stored or recorded numerical value. -/
def NumericalValue.toRat : NumericalValue → Rat
  | .u64 v => v
  | .i64 v => v
  | .f64 q => q

/-- A recorded `i64` payload of a legal writer trace lies in the signed 64-bit
range, and a `u64` payload is a genuine unsigned 64-bit value. -/
def NumericalValue.inRange : NumericalValue → Bool
  | .u64 v => decide (v < 18446744073709551616)
  | .i64 v => decide (i64MinInt ≤ v ∧ v ≤ i64MaxInt)
  | .f64 _ => true

def ColumnValue.numInRange : ColumnValue → Bool
  | .numerical n => n.inRange
  | _ => true

/-! ### Cardinality (spec section 3) -/

inductive Cardinality where
  | required
  | optional
  | multivalued
deriving DecidableEq, Repr

/-- Modelled from the spec: cardinality inference from per-row value counts
(section 3): `Required` if every row has exactly one value, else `Optional`
if every row has at most one, else `Multivalued`. -/
def inferCardinality (counts : List Nat) : Cardinality :=
  if counts.all (· = 1) then .required
  else if counts.all (· ≤ 1) then .optional
  else .multivalued

/-- The containment order on cardinalities: `Required` is the smallest shape,
`Multivalued` the largest. -/
def Cardinality.rank : Cardinality → Nat
  | .required => 0
  | .optional => 1
  | .multivalued => 2

/-- Whether a cardinality contains a given per-row count profile. -/
def Cardinality.fitsCounts : Cardinality → List Nat → Prop
  | .required, counts => ∀ c ∈ counts, c = 1
  | .optional, counts => ∀ c ∈ counts, c ≤ 1
  | .multivalued, _ => True

/-! ### Byte-lexicographic order (spec section 3, "Dictionary") -/

/-- Byte-lexicographic comparison (less-or-equal) on byte strings. -/
def bytesLeB : List Nat → List Nat → Bool
  | [], _ => true
  | _ :: _, [] => false
  | a :: as, b :: bs => if a < b then true else if b < a then false else bytesLeB as bs

/-- Strict byte-lexicographic comparison on byte strings. -/
def bytesLtB : List Nat → List Nat → Bool
  | [], [] => false
  | [], _ :: _ => true
  | _ :: _, [] => false
  | a :: as, b :: bs => if a < b then true else if b < a then false else bytesLtB as bs

def bytesLe (x y : List Nat) : Prop := bytesLeB x y = true

instance : DecidableRel bytesLe := fun x y =>
  inferInstanceAs (Decidable (bytesLeB x y = true))

theorem bytesLeB_total (x y : List Nat) : bytesLeB x y = true ∨ bytesLeB y x = true := by
  induction x generalizing y with
  | nil => exact Or.inl rfl
  | cons a as ih =>
    cases y with
    | nil => exact Or.inr rfl
    | cons b bs =>
      simp only [bytesLeB]
      rcases Nat.lt_trichotomy a b with h | h | h
      · left; simp [h]
      · subst h
        simpa [Nat.lt_irrefl] using ih bs
      · right; simp [h]

theorem bytesLeB_trans {x y z : List Nat} (hxy : bytesLeB x y = true)
    (hyz : bytesLeB y z = true) : bytesLeB x z = true := by
  induction x generalizing y z with
  | nil => rfl
  | cons a as ih =>
    cases y with
    | nil => simp [bytesLeB] at hxy
    | cons b bs =>
      cases z with
      | nil => simp [bytesLeB] at hyz
      | cons c cs =>
        simp only [bytesLeB] at hxy hyz ⊢
        rcases Nat.lt_trichotomy a b with hab | hab | hab
        · rcases Nat.lt_trichotomy b c with hbc | hbc | hbc
          · simp [Nat.lt_trans hab hbc]
          · subst hbc; simp [hab]
          · simp [hbc, Nat.lt_asymm hbc] at hyz
        · subst hab
          simp [Nat.lt_irrefl] at hxy
          rcases Nat.lt_trichotomy a c with hac | hac | hac
          · simp [hac]
          · subst hac
            simp [Nat.lt_irrefl] at hyz ⊢
            exact ih hxy hyz
          · simp [hac, Nat.lt_asymm hac] at hyz
        · simp [hab, Nat.lt_asymm hab] at hxy

theorem bytesLeB_antisymm {x y : List Nat} (hxy : bytesLeB x y = true)
    (hyx : bytesLeB y x = true) : x = y := by
  induction x generalizing y with
  | nil =>
    cases y with
    | nil => rfl
    | cons b bs => simp [bytesLeB] at hyx
  | cons a as ih =>
    cases y with
    | nil => simp [bytesLeB] at hxy
    | cons b bs =>
      simp only [bytesLeB] at hxy hyx
      rcases Nat.lt_trichotomy a b with hab | hab | hab
      · simp [hab, Nat.lt_asymm hab, Nat.lt_irrefl] at hyx
      · subst hab
        simp [Nat.lt_irrefl] at hxy hyx
        rw [ih hxy hyx]
      · simp [hab, Nat.lt_asymm hab] at hxy

instance : IsTotal (List Nat) bytesLe := ⟨bytesLeB_total⟩

instance : IsTrans (List Nat) bytesLe := ⟨fun _ _ _ => bytesLeB_trans⟩

instance : IsAntisymm (List Nat) bytesLe := ⟨fun _ _ => bytesLeB_antisymm⟩

theorem bytesLtB_iff {x y : List Nat} :
    bytesLtB x y = true ↔ (bytesLeB x y = true ∧ x ≠ y) := by
  induction x generalizing y with
  | nil =>
    cases y with
    | nil => simp [bytesLtB, bytesLeB]
    | cons b bs => simp [bytesLtB, bytesLeB]
  | cons a as ih =>
    cases y with
    | nil => simp [bytesLtB, bytesLeB]
    | cons b bs =>
      simp only [bytesLtB, bytesLeB]
      rcases Nat.lt_trichotomy a b with hab | hab | hab
      · simp [hab]
        intro h; omega
      · subst hab
        simp [Nat.lt_irrefl, ih]
      · simp [hab, Nat.lt_asymm hab]

/-! ### Column keys and the directory order (spec sections 3 and 4.6) -/

/-- Modelled from the spec: a column is identified by a (name, type-category)
pair (section 3).  Names are byte strings. -/
structure ColumnKey where
  name : List Nat
  cat : ColumnTypeCategory
deriving DecidableEq, Repr

/-- Modelled from the spec: the directory order on columns, sorted by
(name, category-tag) (section 4.6). -/
def keyLeB (a b : ColumnKey) : Bool :=
  if bytesLtB a.name b.name then true
  else if bytesLtB b.name a.name then false
  else a.cat.tag ≤ b.cat.tag

def keyLe (a b : ColumnKey) : Prop := keyLeB a b = true

instance : DecidableRel keyLe := fun a b =>
  inferInstanceAs (Decidable (keyLeB a b = true))

theorem keyLeB_total (a b : ColumnKey) : keyLeB a b = true ∨ keyLeB b a = true := by
  unfold keyLeB
  by_cases h1 : bytesLtB a.name b.name = true
  · left; simp [h1]
  · by_cases h2 : bytesLtB b.name a.name = true
    · right; simp [h1, h2]
    · simp [h1, h2]
      omega

theorem bytesLtB_asymm {x y : List Nat} (h : bytesLtB x y = true) :
    bytesLtB y x = false := by
  rcases bytesLtB_iff.mp h with ⟨hle, hne⟩
  by_contra hcon
  have h2 := bytesLtB_iff.mp (by
    cases hyx : bytesLtB y x
    · exact absurd hyx hcon
    · rfl)
  exact hne (bytesLeB_antisymm hle h2.1)

theorem bytesEq_of_not_ltB {x y : List Nat} (h1 : ¬ bytesLtB x y = true)
    (h2 : ¬ bytesLtB y x = true) : x = y := by
  rcases bytesLeB_total x y with h | h
  · by_contra hne
    exact h1 (bytesLtB_iff.mpr ⟨h, hne⟩)
  · by_contra hne
    exact h2 (bytesLtB_iff.mpr ⟨h, fun e => hne e.symm⟩)

theorem keyLeB_trans {a b c : ColumnKey} (hab : keyLeB a b = true)
    (hbc : keyLeB b c = true) : keyLeB a c = true := by
  unfold keyLeB at hab hbc ⊢
  by_cases h1 : bytesLtB a.name b.name = true
  · -- a.name < b.name
    have hab' := bytesLtB_iff.mp h1
    by_cases h2 : bytesLtB b.name c.name = true
    · have hbc' := bytesLtB_iff.mp h2
      have hle : bytesLeB a.name c.name = true := bytesLeB_trans hab'.1 hbc'.1
      have hne : a.name ≠ c.name := by
        intro h
        have := bytesLeB_antisymm hbc'.1 (h ▸ hab'.1)
        exact hab'.2 (by rw [this, h])
      simp [bytesLtB_iff.mpr ⟨hle, hne⟩]
    · simp [h2] at hbc
      by_cases h3 : bytesLtB c.name b.name = true
      · simp [h3] at hbc
      · -- b.name = c.name
        have hbc2 : b.name = c.name := bytesEq_of_not_ltB h2 h3
        rw [← hbc2]
        simp [h1]
  · by_cases h1' : bytesLtB b.name a.name = true
    · simp [h1, h1'] at hab
    · -- a.name and b.name are equal
      have heq : a.name = b.name := bytesEq_of_not_ltB h1 h1'
      simp [h1, h1'] at hab
      rw [heq]
      by_cases h2 : bytesLtB b.name c.name = true
      · simp [h2]
      · by_cases h3 : bytesLtB c.name b.name = true
        · simp [h2, h3] at hbc
        · simp [h2, h3] at hbc ⊢
          omega

theorem keyLeB_antisymm {a b : ColumnKey} (hab : keyLeB a b = true)
    (hba : keyLeB b a = true) : a = b := by
  unfold keyLeB at hab hba
  by_cases h1 : bytesLtB a.name b.name = true
  · rw [bytesLtB_asymm h1] at hba
    simp [h1] at hba
  · by_cases h2 : bytesLtB b.name a.name = true
    · simp [h1, h2] at hab
    · have heq : a.name = b.name := bytesEq_of_not_ltB h1 h2
      simp [h1, h2] at hab hba
      have htag : a.cat.tag = b.cat.tag := Nat.le_antisymm hab hba
      have hcat : a.cat = b.cat := by
        cases ha : a.cat <;> cases hb : b.cat <;>
          simp [ha, hb, ColumnTypeCategory.tag] at htag ⊢
      cases a; cases b
      simp_all

instance : IsTotal ColumnKey keyLe := ⟨keyLeB_total⟩

instance : IsTrans ColumnKey keyLe := ⟨fun _ _ _ => keyLeB_trans⟩

instance : IsAntisymm ColumnKey keyLe := ⟨fun _ _ => keyLeB_antisymm⟩

/-! ### Writer traces (spec section 4.5) -/

/-- Modelled from the spec: a single `record_*` call of the columnar writer
(section 4.5): a row id, a column name and a value. -/
structure Record where
  row : Nat
  name : List Nat
  value : ColumnValue
deriving DecidableEq, Repr

def Record.key (r : Record) : ColumnKey := ⟨r.name, r.value.category⟩

/-- Modelled from the spec: the columnar writer buffers the full stream of
`record_*` calls in order (section 4.5). -/
structure ColumnarWriter where
  records : List Record
deriving DecidableEq, Repr

def ColumnarWriter.recordStr (w : ColumnarWriter) (row : Nat) (name t : List Nat) :
    ColumnarWriter := ⟨w.records ++ [⟨row, name, .str t⟩]⟩

def ColumnarWriter.recordBytes (w : ColumnarWriter) (row : Nat) (name t : List Nat) :
    ColumnarWriter := ⟨w.records ++ [⟨row, name, .bytes t⟩]⟩

def ColumnarWriter.recordNumerical (w : ColumnarWriter) (row : Nat) (name : List Nat)
    (v : NumericalValue) : ColumnarWriter := ⟨w.records ++ [⟨row, name, .numerical v⟩]⟩

def ColumnarWriter.recordBool (w : ColumnarWriter) (row : Nat) (name : List Nat)
    (b : Bool) : ColumnarWriter := ⟨w.records ++ [⟨row, name, .bool b⟩]⟩

def ColumnarWriter.recordIpAddr (w : ColumnarWriter) (row : Nat) (name : List Nat)
    (v : Nat) : ColumnarWriter := ⟨w.records ++ [⟨row, name, .ipAddr v⟩]⟩

def ColumnarWriter.recordDatetime (w : ColumnarWriter) (row : Nat) (name : List Nat)
    (v : Int) : ColumnarWriter := ⟨w.records ++ [⟨row, name, .dateTime v⟩]⟩

/-- The values recorded for a given (row, name, type-category), in insertion
order (spec section 4.5: repeated records for one row append to its list). -/
def recordedAt (trace : List Record) (k : ColumnKey) (row : Nat) : List ColumnValue :=
  trace.filterMap fun rec =>
    if rec.key = k ∧ rec.row = row then some rec.value else none

/-- The per-row value lists of one column over the declared row universe. -/
def rowsFor (trace : List Record) (k : ColumnKey) (numRows : Nat) :
    List (List ColumnValue) :=
  (List.range numRows).map (recordedAt trace k)

/-- The keys of all columns observed in a trace, first-seen order. -/
def observedKeys (trace : List Record) : List ColumnKey :=
  (trace.map Record.key).dedup

def sortKeys (ks : List ColumnKey) : List ColumnKey :=
  List.insertionSort keyLe ks

/-! ### Dictionary (spec section 4.2) -/

/-- Modelled from the spec: dictionary finalization assigns ordinals in sorted
byte-lexicographic order of the distinct terms (section 4.2). -/
def finalizeDictionary (terms : List (List Nat)) : List (List Nat) :=
  List.insertionSort bytesLe terms.dedup

/-- Modelled from the spec: `ord_to_term` of a finalized dictionary
(section 4.2). -/
def ordToTerm (dict : List (List Nat)) (ord : Nat) : Option (List Nat) :=
  dict[ord]?

/-- The ordinal of a term in a finalized dictionary: the index of its first
occurrence. -/
def indexOfTerm : List (List Nat) → List Nat → Nat
  | [], _ => 0
  | a :: as, t => if a = t then 0 else indexOfTerm as t + 1

/-- Modelled from the spec: `term_to_ord` of a finalized dictionary
(section 4.2). -/
def termToOrd (dict : List (List Nat)) (t : List Nat) : Nat :=
  indexOfTerm dict t

/-! ### Serialized columns (spec sections 4.3 to 4.5) -/

/-- A stored cell of a serialized column: a sorted dictionary ordinal for
str/bytes columns, a coerced numerical value, or a plain payload. -/
inductive Cell where
  | ord (o : Nat)
  | num (v : NumericalValue)
  | bool (b : Bool)
  | ip (v : Nat)
  | dt (v : Int)
deriving DecidableEq, Repr

inductive ColumnType where
  | bool
  | i64
  | u64
  | f64
  | dateTime
  | ipAddr
  | bytes
  | str
deriving DecidableEq, Repr

def ColumnType.category : ColumnType → ColumnTypeCategory
  | .bool => .bool
  | .i64 => .numerical
  | .u64 => .numerical
  | .f64 => .numerical
  | .dateTime => .dateTime
  | .ipAddr => .ipAddr
  | .bytes => .bytes
  | .str => .str

def columnTypeFor (cat : ColumnTypeCategory) (nt : NumericalType) : ColumnType :=
  match cat with
  | .bool => .bool
  | .str => .str
  | .bytes => .bytes
  | .ipAddr => .ipAddr
  | .dateTime => .dateTime
  | .numerical =>
    match nt with
    | .i64 => .i64
    | .u64 => .u64
    | .f64 => .f64

def ColumnValue.termPayload : ColumnValue → List Nat
  | .str t => t
  | .bytes t => t
  | _ => []

def ColumnValue.numPayload : ColumnValue → Option NumericalValue
  | .numerical n => some n
  | _ => none

/-- Encoding of one recorded value into its stored cell, given the column's
finalized dictionary and stored numerical type. -/
def encodeCell (dict : List (List Nat)) (nt : NumericalType) : ColumnValue → Cell
  | .str t => .ord (indexOfTerm dict t)
  | .bytes t => .ord (indexOfTerm dict t)
  | .numerical n => .num (coerceNumerical nt n)
  | .bool b => .bool b
  | .ipAddr v => .ip v
  | .dateTime v => .dt v

def cellsLenSum (cells : List (List Cell)) : Nat :=
  (cells.map List.length).sum

/-- Modelled from the spec: the serialized image of one column (sections 4.3
to 4.5): stored type, declared cardinality, finalized dictionary, the
null-index payload for the declared cardinality (presence bitset for
`Optional`, offset sequence for `Multivalued`), and the flat value stream. -/
structure SColumn where
  typ : ColumnType
  card : Cardinality
  dict : List (List Nat)
  presence : List Bool
  offsets : List Nat
  flat : List Cell
  numRows : Nat
deriving DecidableEq, Repr

/-- The numerical values observed in a column's rows. -/
def numsOfRows (rows : List (List ColumnValue)) : List NumericalValue :=
  rows.flatten.filterMap ColumnValue.numPayload

/-- The term payloads observed in a column's rows. -/
def termsOfRows (rows : List (List ColumnValue)) : List (List Nat) :=
  rows.flatten.map ColumnValue.termPayload

/-- Modelled from the spec: serialization of one column from its per-row value
lists (sections 4.1 to 4.5): infer the stored type, finalize the dictionary,
rewrite values to sorted ordinals / coerced numericals, infer the cardinality
from per-row counts and emit the matching null index plus the flat value
stream. -/
def buildColumn (cat : ColumnTypeCategory) (rows : List (List ColumnValue)) : SColumn :=
  let dict := finalizeDictionary (termsOfRows rows)
  let nt := inferNumericalType (numsOfRows rows)
  let cells := rows.map (List.map (encodeCell dict nt))
  { typ := columnTypeFor cat nt
  , card := inferCardinality (rows.map List.length)
  , dict := if cat = .str ∨ cat = .bytes then dict else []
  , presence := cells.map fun c => !c.isEmpty
  , offsets := (List.range (cells.length + 1)).map fun i => cellsLenSum (cells.take i)
  , flat := cells.flatten
  , numRows := rows.length }

/-! ### Reading a serialized column (spec sections 4.3 and 4.7) -/

/-- The rank structure of the optional-cardinality presence bitset: how many
rows before `row` carry a value (spec section 4.3). -/
def rankTrue (presence : List Bool) (row : Nat) : Nat :=
  (presence.take row).count true

/-- Modelled from the spec: `values_for_doc` over the serialized form
(sections 4.3 and 4.7).  `Required` reads the row-th value of the flat
stream, `Optional` consults the presence bitset and its rank, `Multivalued`
reads the half-open offset range. -/
def valuesForRow (col : SColumn) (row : Nat) : List Cell :=
  match col.card with
  | .required => (col.flat[row]?).toList
  | .optional =>
    if (col.presence[row]?).getD false then
      (col.flat[rankTrue col.presence row]?).toList
    else []
  | .multivalued =>
    let s := (col.offsets[row]?).getD 0
    let e := (col.offsets[row + 1]?).getD 0
    (col.flat.drop s).take (e - s)

/-- Modelled from the spec: `first(row)` of a dynamic column (section 4.7). -/
def firstCell (col : SColumn) (row : Nat) : Option Cell :=
  (valuesForRow col row).head?

/-! ### The columnar file and its reader (spec sections 4.5 and 4.6) -/

/-- Modelled from the spec: the serialized columnar file at observational
granularity (section 6): the declared row count plus the directory of columns
sorted by (name, category-tag). -/
structure Columnar where
  numRows : Nat
  columns : List (ColumnKey × SColumn)
deriving DecidableEq, Repr

/-- Modelled from the spec: `serialize(num_rows, None, sink)` followed by
`ColumnarReader::open` (sections 4.5 and 4.6): one column per observed
(name, category) pair, directory sorted by (name, category-tag). -/
def serializeColumnar (trace : List Record) (numRows : Nat) : Columnar :=
  { numRows := numRows
  , columns := (sortKeys (observedKeys trace)).map fun k =>
      (k, buildColumn k.cat (rowsFor trace k numRows)) }

/-- The first index at which a value occurs in a list of naturals. -/
def findIndexNat : List Nat → Nat → Option Nat
  | [], _ => none
  | a :: as, x => if a = x then some 0 else (findIndexNat as x).map (· + 1)

/-- Applying the old-to-new row permutation to the per-row value lists of one
column (spec section 4.5 step 3): the values recorded at old row `r` move to
new row `perm[r]`. -/
def permuteRows (perm : List Nat) (rows : List (List ColumnValue)) :
    List (List ColumnValue) :=
  (List.range rows.length).map fun newRow =>
    match findIndexNat perm newRow with
    | some oldRow => rows.getD oldRow []
    | none => []

/-- Modelled from the spec: `serialize(num_rows, Some(perm), sink)` followed
by `ColumnarReader::open` (section 4.5). -/
def serializeColumnarPerm (trace : List Record) (numRows : Nat)
    (perm : List Nat) : Columnar :=
  { numRows := numRows
  , columns := (sortKeys (observedKeys trace)).map fun k =>
      (k, buildColumn k.cat (permuteRows perm (rowsFor trace k numRows))) }

/-- Modelled from the spec: `list_columns` (section 4.6): the ordered
directory of (name, category) entries. -/
def listColumns (c : Columnar) : List ColumnKey :=
  c.columns.map Prod.fst

/-- Modelled from the spec: `read_columns(name)` resolves a name to the
handles sharing it (section 4.6); here we resolve a full (name, category)
key to its column. -/
def findColumn (c : Columnar) (k : ColumnKey) : Option SColumn :=
  (c.columns.find? fun p => decide (p.1 = k)).map Prod.snd

/-! ### Logical read-back values -/

/-- The observable value a dynamic-column accessor yields: term bytes through
`ord_to_bytes`, numbers through the stored numerical type, plain payloads
otherwise. -/
inductive LogicalValue where
  | term (t : List Nat)
  | num (q : Rat)
  | bool (b : Bool)
  | ip (v : Nat)
  | dt (v : Int)
deriving DecidableEq, Repr

/-- The logical value a recorded value should read back as. -/
def ColumnValue.toLogical : ColumnValue → LogicalValue
  | .str t => .term t
  | .bytes t => .term t
  | .numerical n => .num n.toRat
  | .bool b => .bool b
  | .ipAddr v => .ip v
  | .dateTime v => .dt v

/-- Decoding one stored cell through the dynamic-column accessors: ordinals
go through `ord_to_bytes` against the column dictionary. -/
def decodeCell (dict : List (List Nat)) : Cell → LogicalValue
  | .ord o => .term (dict.getD o [])
  | .num v => .num v.toRat
  | .bool b => .bool b
  | .ip v => .ip v
  | .dt v => .dt v

/-- The full observable read of one (row, name, category): `values_for_doc`
(respectively `term_ords` plus `ord_to_bytes`) on the matching dynamic
column; an absent column yields no values. -/
def readValues (c : Columnar) (k : ColumnKey) (row : Nat) : List LogicalValue :=
  match findColumn c k with
  | none => []
  | some col => (valuesForRow col row).map (decodeCell col.dict)

/-! ### Stack merge (spec section 4.8) -/

/-- Decoding one stored cell back to a recordable value, for re-encoding
during a merge: ordinals are resolved against the source dictionary. -/
def cellToColumnValue (cat : ColumnTypeCategory) (dict : List (List Nat)) :
    Cell → ColumnValue
  | .ord o => if cat = .str then .str (dict.getD o []) else .bytes (dict.getD o [])
  | .num v => .numerical v
  | .bool b => .bool b
  | .ip v => .ipAddr v
  | .dt v => .dateTime v

/-- The per-row value lists one input reader contributes to a merged column:
its decoded rows when it has the column, empty rows otherwise
(spec section 4.8 step 2). -/
def decodeRowsFor (c : Columnar) (k : ColumnKey) : List (List ColumnValue) :=
  match findColumn c k with
  | none => List.replicate c.numRows []
  | some col =>
    (List.range c.numRows).map fun r =>
      (valuesForRow col r).map (cellToColumnValue k.cat col.dict)

/-- Modelled from the spec: the merge engine under `Stack` order
(section 4.8): the merged row universe is the concatenation of the inputs,
the merged directory is the sorted union of the input directories, and each
merged column is re-encoded (fresh type inference, merged sorted dictionary,
fresh null index) from the inputs walked in new-row order. -/
def mergeStack (inputs : List Columnar) : Columnar :=
  { numRows := (inputs.map Columnar.numRows).sum
  , columns := (sortKeys ((inputs.map listColumns).flatten.dedup)).map fun k =>
      (k, buildColumn k.cat ((inputs.map fun c => decodeRowsFor c k).flatten)) }

/-! ### Building from document streams (the tests' `build_columnar`) -/

/-- One document: the (column-name, value) pairs recorded for one row, in
order, as in the tests' `build_columnar`. -/
abbrev Doc := List (List Nat × ColumnValue)

/-- The writer trace produced by recording document `i` of the stream at row
`i`, as the tests' `build_columnar` does. -/
def docsToTraceFrom (base : Nat) : List Doc → List Record
  | [] => []
  | doc :: rest =>
    doc.map (fun nv => ⟨base, nv.1, nv.2⟩) ++ docsToTraceFrom (base + 1) rest

def docsToTrace (docs : List Doc) : List Record :=
  docsToTraceFrom 0 docs

/-- Building a columnar from a document stream with `num_rows` equal to the
number of documents, as the tests' `build_columnar` does. -/
def buildColumnarOfDocs (docs : List Doc) : Columnar :=
  serializeColumnar (docsToTrace docs) docs.length

/-- The values one document records for a given column key, in order. -/
def docRecorded (doc : Doc) (k : ColumnKey) : List ColumnValue :=
  doc.filterMap fun nv =>
    if nv.1 = k.name ∧ nv.2.category = k.cat then some nv.2 else none

/-! ### Model validation against the shipped tests (`columnar/src/tests.rs`) -/

/-- The model reproduces `test_dataframe_writer_bool`: an optional Bool
column whose first-values over 5 rows are
`[None, Some(false), None, Some(true), None]`. -/
theorem model_check_bool :
    let w := (ColumnarWriter.mk []).recordBool 1 [7] false |>.recordBool 3 [7] true
    let c := serializeColumnar w.records 5
    listColumns c = [⟨[7], .bool⟩] ∧
    findColumn c ⟨[7], .bool⟩ = some (buildColumn .bool (rowsFor w.records ⟨[7], .bool⟩ 5)) ∧
    (findColumn c ⟨[7], .bool⟩).map SColumn.card = some .optional ∧
    (findColumn c ⟨[7], .bool⟩).map SColumn.typ = some .bool ∧
    ((List.range 5).map fun r => readValues c ⟨[7], .bool⟩ r) =
      [[], [.bool false], [], [.bool true], []] := by
  decide

/-- The model reproduces `test_dictionary_encoded_str` (spec scenario S4):
two columns, dictionary `[a, b, c]` in sorted order, row ordinals
`[None, 0, None, 2, 1]`. -/
theorem model_check_dictionary :
    let w := (ColumnarWriter.mk []).recordStr 1 [1] [97] |>.recordStr 3 [1] [99]
      |>.recordStr 3 [2] [100] |>.recordStr 4 [1] [98]
    let c := serializeColumnar w.records 5
    listColumns c = [⟨[1], .str⟩, ⟨[2], .str⟩] ∧
    (findColumn c ⟨[1], .str⟩).map SColumn.dict = some [[97], [98], [99]] ∧
    ((findColumn c ⟨[1], .str⟩).map fun col =>
      (List.range 5).map fun r => valuesForRow col r) =
      some [[], [.ord 0], [], [.ord 2], [.ord 1]] ∧
    ((List.range 5).map fun r => readValues c ⟨[1], .str⟩ r) =
      [[], [.term [97]], [], [.term [99]], [.term [98]]] := by
  decide

/-- The model reproduces `test_dataframe_writer_numerical`: three small `U64`
records over 6 rows give an `I64` optional column, and `first` yields the
recorded values at rows 1, 2, 4, `None` elsewhere, including row 6 which is
past the row universe. -/
theorem model_check_numerical :
    let w := (ColumnarWriter.mk []).recordNumerical 1 [5] (.u64 12)
      |>.recordNumerical 2 [5] (.u64 13) |>.recordNumerical 4 [5] (.u64 15)
    let c := serializeColumnar w.records 6
    (findColumn c ⟨[5], .numerical⟩).map SColumn.typ = some .i64 ∧
    (findColumn c ⟨[5], .numerical⟩).map SColumn.card = some .optional ∧
    ((findColumn c ⟨[5], .numerical⟩).map fun col =>
      (List.range 7).map fun r => firstCell col r) =
      some [none, some (.num (.i64 12)), some (.num (.i64 13)), none,
            some (.num (.i64 15)), none, none] := by
  decide

/-- The model reproduces `test_dataframe_writer_u64_multivalued`: six `u64`
records over 7 rows give an `I64` multivalued column and row 6 yields
`[2, 3]`. -/
theorem model_check_multivalued :
    let w := (ColumnarWriter.mk []).recordNumerical 2 [5] (.u64 2)
      |>.recordNumerical 3 [5] (.u64 3) |>.recordNumerical 4 [5] (.u64 2)
      |>.recordNumerical 5 [5] (.u64 5) |>.recordNumerical 6 [5] (.u64 2)
      |>.recordNumerical 6 [5] (.u64 3)
    let c := serializeColumnar w.records 7
    (findColumn c ⟨[5], .numerical⟩).map SColumn.typ = some .i64 ∧
    (findColumn c ⟨[5], .numerical⟩).map SColumn.card = some .multivalued ∧
    ((findColumn c ⟨[5], .numerical⟩).map fun col => valuesForRow col 6) =
      some [.num (.i64 2), .num (.i64 3)] ∧
    c.numRows = 7 := by
  decide

/-- The model reproduces `test_columnar_failing_test` (spec scenario S5):
stack-merging an empty columnar with a one-document columnar equals building
from the concatenated stream. -/
theorem model_check_merge_failing_test :
    let a : List Doc := []
    let b : List Doc := [[([3], ColumnValue.str [97])]]
    mergeStack [buildColumnarOfDocs a, buildColumnarOfDocs b] =
      buildColumnarOfDocs (a ++ b) := by
  decide

/-! ### The alphanumeric token filter (`src/tokenizer/alphanum_only.rs`) -/

/-- A token of the tokenizer pipeline (field layout of `tantivy::tokenizer::Token`). -/
structure Token where
  offsetFrom : Nat
  offsetTo : Nat
  position : Nat
  text : String
  positionLength : Nat
deriving DecidableEq, Repr

/-- `char::is_ascii_alphanumeric` from the Rust standard library. -/
def isAsciiAlphanumericChar (c : Char) : Bool :=
  decide ((48 ≤ c.toNat ∧ c.toNat ≤ 57) ∨ (65 ≤ c.toNat ∧ c.toNat ≤ 90) ∨
    (97 ≤ c.toNat ∧ c.toNat ≤ 122))

/-- `AlphaNumOnlyFilterStream::predicate`: the token's text consists entirely
of ASCII alphanumeric characters. -/
def alphaNumPredicate (t : Token) : Bool :=
  t.text.data.all isAsciiAlphanumericChar

/-- `AlphaNumOnlyFilterStream::advance`: advance the tail until a token
satisfying the predicate is found; `none` models returning `false`.  The
underlying token stream is modelled by the list of tokens it has yet to
yield. -/
def alphaNumAdvance : List Token → Option (Token × List Token)
  | [] => none
  | t :: rest => if alphaNumPredicate t then some (t, rest) else alphaNumAdvance rest

theorem alphaNumAdvance_length {l : List Token} {t : Token} {rest : List Token}
    (h : alphaNumAdvance l = some (t, rest)) : rest.length < l.length := by
  induction l with
  | nil => simp [alphaNumAdvance] at h
  | cons a as ih =>
    by_cases hp : alphaNumPredicate a
    · simp [alphaNumAdvance, hp] at h
      simp [h]
    · simp only [alphaNumAdvance, hp, if_neg, Bool.false_eq_true] at h
      exact Nat.lt_trans (ih h) (by simp)

/-- The full sequence of tokens the filter stream yields: repeated `advance`
calls until exhaustion. -/
def alphaNumEmitted (l : List Token) : List Token :=
  match h : alphaNumAdvance l with
  | none => []
  | some (t, rest) => t :: alphaNumEmitted rest
termination_by l.length
decreasing_by exact alphaNumAdvance_length h

theorem alphaNumEmitted_of_advance_none {l : List Token}
    (h : alphaNumAdvance l = none) : alphaNumEmitted l = [] := by
  rw [alphaNumEmitted]
  split
  · rfl
  · simp_all

theorem alphaNumEmitted_of_advance_some {l : List Token} {t : Token}
    {rest : List Token} (h : alphaNumAdvance l = some (t, rest)) :
    alphaNumEmitted l = t :: alphaNumEmitted rest := by
  rw [alphaNumEmitted]
  split
  · simp_all
  · rename_i h2
    rw [h] at h2
    simp_all

theorem alphaNumEmitted_eq_filter (l : List Token) :
    alphaNumEmitted l = l.filter alphaNumPredicate := by
  induction l with
  | nil => exact alphaNumEmitted_of_advance_none rfl
  | cons t rest ih =>
    by_cases hp : alphaNumPredicate t
    · have hadv : alphaNumAdvance (t :: rest) = some (t, rest) := by
        simp [alphaNumAdvance, hp]
      rw [alphaNumEmitted_of_advance_some hadv]
      simp [hp, ih]
    · have hadv : alphaNumAdvance (t :: rest) = alphaNumAdvance rest := by
        simp [alphaNumAdvance, hp]
      have hsame : alphaNumEmitted (t :: rest) = alphaNumEmitted rest := by
        cases h : alphaNumAdvance rest with
        | none =>
          rw [alphaNumEmitted_of_advance_none (hadv.trans h),
            alphaNumEmitted_of_advance_none h]
        | some p =>
          obtain ⟨u, rest2⟩ := p
          rw [alphaNumEmitted_of_advance_some (hadv.trans h),
            alphaNumEmitted_of_advance_some h]
      simp [hsame, hp, ih]

theorem alphaNumAdvance_eq_none_iff (l : List Token) :
    alphaNumAdvance l = none ↔ l.filter alphaNumPredicate = [] := by
  induction l with
  | nil => simp [alphaNumAdvance]
  | cons t rest ih =>
    by_cases hp : alphaNumPredicate t
    · simp [alphaNumAdvance, hp]
    · simp [alphaNumAdvance, hp, ih]

/-! ### Null-index codec correctness (spec section 4.3) -/

theorem getD_map_rows {α β : Type} (f : α → β) (rows : List (List α)) (r : Nat) :
    (rows.map (List.map f)).getD r [] = (rows.getD r []).map f := by
  induction rows generalizing r with
  | nil => simp
  | cons c cs ih =>
    cases r with
    | zero => simp
    | succ r => simpa using ih r

theorem required_read {α : Type} {cells : List (List α)}
    (h : ∀ c ∈ cells, c.length = 1) (r : Nat) :
    (cells.flatten[r]?).toList = cells.getD r [] := by
  induction cells generalizing r with
  | nil => simp
  | cons c cs ih =>
    obtain ⟨a, rfl⟩ : ∃ a, c = [a] := by
      cases c with
      | nil => simp at h
      | cons a t =>
        cases t with
        | nil => exact ⟨a, rfl⟩
        | cons b t2 =>
          have := h (a :: b :: t2) (by simp)
          simp at this
    cases r with
    | zero => simp
    | succ r =>
      simpa using ih (fun c hc => h c (List.mem_cons_of_mem _ hc)) r

theorem optional_read {α : Type} {cells : List (List α)}
    (h : ∀ c ∈ cells, c.length ≤ 1) (r : Nat) :
    (if ((cells.map fun c => !c.isEmpty)[r]?).getD false then
      (cells.flatten[((cells.map fun c => !c.isEmpty).take r).count true]?).toList
    else []) = cells.getD r [] := by
  induction cells generalizing r with
  | nil => simp
  | cons c cs ih =>
    have hc := h c (by simp)
    have hrest : ∀ c ∈ cs, c.length ≤ 1 := fun c hc => h c (List.mem_cons_of_mem _ hc)
    cases r with
    | zero =>
      cases c with
      | nil => simp
      | cons a t =>
        cases t with
        | nil => simp
        | cons b t2 => simp at hc
    | succ r =>
      cases c with
      | nil => simpa using ih hrest r
      | cons a t =>
        cases t with
        | nil => simpa [List.count_cons] using ih hrest r
        | cons b t2 => simp at hc

theorem multivalued_read {α : Type} (cells : List (List α)) (r : Nat) :
    ((cells.flatten.drop ((cells.map List.length).take r).sum).take
      (((cells.map List.length).take (r + 1)).sum -
        ((cells.map List.length).take r).sum)) = cells.getD r [] := by
  induction cells generalizing r with
  | nil => simp
  | cons c cs ih =>
    cases r with
    | zero =>
      have h1 : ((List.map List.length (c :: cs)).take 1).sum = c.length := by simp
      simp only [List.take_zero, List.sum_nil, List.drop_zero, Nat.sub_zero,
        List.flatten_cons, List.getD_cons_zero, Nat.zero_add, h1]
      exact List.take_left c cs.flatten
    | succ r =>
      simp only [List.map_cons, List.take_succ_cons, List.sum_cons, List.flatten_cons,
        List.getD_cons_succ]
      rw [Nat.add_sub_add_left, List.drop_append]
      exact ih r

theorem offsets_getElem?_le {cells : List (List Cell)} {i : Nat} (h : i ≤ cells.length) :
    ((List.range (cells.length + 1)).map fun j => cellsLenSum (cells.take j))[i]? =
      some (cellsLenSum (cells.take i)) := by
  have hi : i < (List.range (cells.length + 1)).length := by
    simp [Nat.lt_succ_of_le h]
  rw [List.getElem?_map, List.getElem?_eq_getElem hi]
  simp

theorem offsets_getElem?_gt {cells : List (List Cell)} {i : Nat}
    (h : cells.length + 1 ≤ i) :
    ((List.range (cells.length + 1)).map fun j => cellsLenSum (cells.take j))[i]? =
      none := by
  apply List.getElem?_eq_none
  simp [h]

/-- Reading row `r` of a serialized column recovers exactly the encoded cells
of that row: the null-index codec (for each of the three cardinalities) is
correct. -/
theorem valuesForRow_buildColumn (cat : ColumnTypeCategory)
    (rows : List (List ColumnValue)) (r : Nat) :
    valuesForRow (buildColumn cat rows) r =
      (rows.getD r []).map
        (encodeCell (finalizeDictionary (termsOfRows rows))
          (inferNumericalType (numsOfRows rows))) := by
  set f := encodeCell (finalizeDictionary (termsOfRows rows))
    (inferNumericalType (numsOfRows rows)) with hf
  set cells := rows.map (List.map f) with hcells
  have hkey : cells.getD r [] = (rows.getD r []).map f := getD_map_rows f rows r
  by_cases h1 : (rows.map List.length).all (· = 1)
  · have hlens : ∀ c ∈ cells, c.length = 1 := by
      intro c hc
      rw [hcells] at hc
      obtain ⟨row, hrow, rfl⟩ := List.mem_map.mp hc
      have := List.all_eq_true.mp h1 _ (List.mem_map.mpr ⟨row, hrow, rfl⟩)
      simpa using this
    have hcard : inferCardinality (rows.map List.length) = .required := by
      simp [inferCardinality, h1]
    simp only [valuesForRow, buildColumn, hcard, ← hcells, ← hf]
    rw [required_read hlens r, hkey]
  · by_cases h2 : (rows.map List.length).all (· ≤ 1)
    · have hlens : ∀ c ∈ cells, c.length ≤ 1 := by
        intro c hc
        rw [hcells] at hc
        obtain ⟨row, hrow, rfl⟩ := List.mem_map.mp hc
        have := List.all_eq_true.mp h2 _ (List.mem_map.mpr ⟨row, hrow, rfl⟩)
        simpa using this
      have hcard : inferCardinality (rows.map List.length) = .optional := by
        simp [inferCardinality, h1, h2]
      simp only [valuesForRow, buildColumn, hcard, ← hcells, ← hf]
      rw [← hkey, ← optional_read hlens r]
      rfl
    · have hcard : inferCardinality (rows.map List.length) = .multivalued := by
        simp [inferCardinality, h1, h2]
      simp only [valuesForRow, buildColumn, hcard, ← hcells, ← hf]
      by_cases hr : r < cells.length
      · rw [offsets_getElem?_le (Nat.le_of_lt hr), offsets_getElem?_le (by omega)]
        simp only [Option.getD_some]
        rw [← hkey]
        have hms := multivalued_read cells r
        simp only [← List.map_take] at hms
        simpa [cellsLenSum] using hms
      · have hr2 : cells.length ≤ r := Nat.le_of_not_lt hr
        have hrows : rows.length ≤ r := by
          simpa [hcells] using hr2
        have hnil : rows.getD r [] = [] := by
          rw [List.getD_eq_getElem?_getD, List.getElem?_eq_none hrows]
          rfl
        rw [hnil]
        simp only [List.map_nil]
        rcases Nat.eq_or_lt_of_le hr2 with heq | hlt
        · rw [← heq, offsets_getElem?_le (Nat.le_refl _), offsets_getElem?_gt (by omega)]
          simp
        · rw [offsets_getElem?_gt (by omega), offsets_getElem?_gt (by omega)]
          simp

/-! ### Dictionary and decode correctness -/

theorem mem_finalizeDictionary {t : List Nat} {terms : List (List Nat)} :
    t ∈ finalizeDictionary terms ↔ t ∈ terms := by
  unfold finalizeDictionary
  rw [(List.perm_insertionSort bytesLe terms.dedup).mem_iff, List.mem_dedup]

theorem dict_getD_indexOf {dict : List (List Nat)} {t : List Nat} (h : t ∈ dict) :
    dict.getD (indexOfTerm dict t) [] = t := by
  induction dict with
  | nil => simp at h
  | cons a as ih =>
    by_cases ha : a = t
    · simp [indexOfTerm, ha]
    · have hmem : t ∈ as := by
        rcases List.mem_cons.mp h with h2 | h2
        · exact absurd h2.symm ha
        · exact h2
      simp only [indexOfTerm, ha, if_false]
      rw [List.getD_cons_succ]
      exact ih hmem

theorem toRat_coerce_of_mem {vals : List NumericalValue} {m : NumericalValue}
    (h : m ∈ vals) :
    (coerceNumerical (inferNumericalType vals) m).toRat = m.toRat := by
  unfold inferNumericalType
  by_cases h1 : vals.any NumericalValue.isF64
  · simp only [h1, if_true]
    cases m <;> simp [coerceNumerical, NumericalValue.toRat]
  · simp only [h1, if_false, Bool.false_eq_true]
    by_cases h2 : vals.all NumericalValue.fitsI64
    · simp only [h2, if_true]
      have hm := List.all_eq_true.mp h2 m h
      cases m with
      | u64 v => simp [coerceNumerical, NumericalValue.toRat]
      | i64 v => simp [coerceNumerical, NumericalValue.toRat]
      | f64 q => simp [NumericalValue.fitsI64] at hm
    · simp only [h2, if_false, Bool.false_eq_true]
      by_cases h3 : vals.all NumericalValue.fitsU64
      · simp only [h3, if_true]
        have hm := List.all_eq_true.mp h3 m h
        cases m with
        | u64 v => simp [coerceNumerical, NumericalValue.toRat]
        | i64 v =>
          simp only [NumericalValue.fitsU64, decide_eq_true_eq] at hm
          simp only [coerceNumerical, NumericalValue.toRat]
          exact_mod_cast congrArg (fun z : Int => (z : Rat)) (Int.toNat_of_nonneg hm)
        | f64 q => simp [NumericalValue.fitsU64] at hm
      · simp only [h3, if_false, Bool.false_eq_true]
        cases m <;> simp [coerceNumerical, NumericalValue.toRat]

/-- Decoding an encoded cell through the reader recovers the recorded value's
logical denotation. -/
theorem decodeCell_encodeCell {cat : ColumnTypeCategory}
    {rows : List (List ColumnValue)} {v : ColumnValue}
    (hv : v ∈ rows.flatten) (hcat : v.category = cat) :
    decodeCell (if cat = .str ∨ cat = .bytes then
        finalizeDictionary (termsOfRows rows) else [])
      (encodeCell (finalizeDictionary (termsOfRows rows))
        (inferNumericalType (numsOfRows rows)) v) = v.toLogical := by
  cases v with
  | str t =>
    have hcat2 : cat = .str := by simpa [ColumnValue.category] using hcat.symm
    subst hcat2
    have hmem : t ∈ finalizeDictionary (termsOfRows rows) :=
      mem_finalizeDictionary.mpr
        (List.mem_map.mpr ⟨.str t, hv, rfl⟩)
    simp only [encodeCell, decodeCell, ColumnValue.toLogical, eq_self_iff_true,
      true_or, or_true, if_true]
    rw [dict_getD_indexOf hmem]
  | bytes t =>
    have hcat2 : cat = .bytes := by simpa [ColumnValue.category] using hcat.symm
    subst hcat2
    have hmem : t ∈ finalizeDictionary (termsOfRows rows) :=
      mem_finalizeDictionary.mpr
        (List.mem_map.mpr ⟨.bytes t, hv, rfl⟩)
    simp only [encodeCell, decodeCell, ColumnValue.toLogical, eq_self_iff_true,
      true_or, or_true, if_true]
    rw [dict_getD_indexOf hmem]
  | numerical m =>
    have hmem : m ∈ numsOfRows rows :=
      List.mem_filterMap.mpr ⟨.numerical m, hv, rfl⟩
    simp [encodeCell, decodeCell, ColumnValue.toLogical, toRat_coerce_of_mem hmem]
  | bool b => simp [encodeCell, decodeCell, ColumnValue.toLogical]
  | ipAddr v2 => simp [encodeCell, decodeCell, ColumnValue.toLogical]
  | dateTime v2 => simp [encodeCell, decodeCell, ColumnValue.toLogical]

/-! ### Resolving columns in a serialized columnar -/

theorem find?_eq_of_mem {α : Type} [DecidableEq α] {l : List α} {k : α} (h : k ∈ l) :
    (l.find? fun x => decide (x = k)) = some k := by
  induction l with
  | nil => simp at h
  | cons a as ih =>
    by_cases ha : a = k
    · subst ha
      simp [List.find?]
    · have : k ∈ as := by
        rcases List.mem_cons.mp h with h2 | h2
        · exact absurd h2.symm ha
        · exact h2
      simp [List.find?, ha, ih this]

theorem find?_eq_none_of_not_mem {α : Type} [DecidableEq α] {l : List α} {k : α}
    (h : k ∉ l) : (l.find? fun x => decide (x = k)) = none := by
  rw [List.find?_eq_none]
  intro x hx
  simp only [decide_eq_true_eq]
  intro he
  exact h (he ▸ hx)

theorem mem_sortKeys {ks : List ColumnKey} {k : ColumnKey} :
    k ∈ sortKeys ks ↔ k ∈ ks :=
  (List.perm_insertionSort keyLe ks).mem_iff

theorem findColumn_serialize (trace : List Record) (n : Nat) (k : ColumnKey) :
    findColumn (serializeColumnar trace n) k =
      if k ∈ observedKeys trace then
        some (buildColumn k.cat (rowsFor trace k n))
      else none := by
  unfold findColumn serializeColumnar
  rw [List.find?_map]
  by_cases h : k ∈ observedKeys trace
  · rw [show ((fun p : ColumnKey × SColumn => decide (p.1 = k)) ∘ fun k' =>
        (k', buildColumn k'.cat (rowsFor trace k' n))) = fun k' => decide (k' = k) from rfl]
    rw [find?_eq_of_mem (mem_sortKeys.mpr h)]
    simp [h]
  · rw [show ((fun p : ColumnKey × SColumn => decide (p.1 = k)) ∘ fun k' =>
        (k', buildColumn k'.cat (rowsFor trace k' n))) = fun k' => decide (k' = k) from rfl]
    rw [find?_eq_none_of_not_mem (fun hm => h (mem_sortKeys.mp hm))]
    simp [h]

/-! ### Trace-level facts -/

theorem recordedAt_category {trace : List Record} {k : ColumnKey} {row : Nat}
    {v : ColumnValue} (h : v ∈ recordedAt trace k row) : v.category = k.cat := by
  unfold recordedAt at h
  obtain ⟨rec, hmem, hv⟩ := List.mem_filterMap.mp h
  by_cases hc : rec.key = k ∧ rec.row = row
  · rw [if_pos hc] at hv
    cases hv
    have := hc.1
    rw [← this]
    rfl
  · rw [if_neg hc] at hv
    cases hv

theorem recordedAt_of_ge {trace : List Record} {k : ColumnKey} {row n : Nat}
    (hlegal : ∀ rec ∈ trace, rec.row < n) (hr : n ≤ row) :
    recordedAt trace k row = [] := by
  unfold recordedAt
  rw [List.filterMap_eq_nil_iff]
  intro rec hmem
  rw [if_neg]
  rintro ⟨-, hrow⟩
  exact Nat.not_lt.mpr hr (hrow ▸ hlegal rec hmem)

theorem recordedAt_of_not_observed {trace : List Record} {k : ColumnKey} {row : Nat}
    (h : k ∉ observedKeys trace) : recordedAt trace k row = [] := by
  unfold recordedAt
  rw [List.filterMap_eq_nil_iff]
  intro rec hmem
  rw [if_neg]
  rintro ⟨hkey, -⟩
  exact h (List.mem_dedup.mpr (List.mem_map.mpr ⟨rec, hmem, hkey⟩))

theorem rowsFor_length (trace : List Record) (k : ColumnKey) (n : Nat) :
    (rowsFor trace k n).length = n := by
  simp [rowsFor]

theorem rowsFor_getD_lt {trace : List Record} {k : ColumnKey} {n r : Nat}
    (h : r < n) : (rowsFor trace k n).getD r [] = recordedAt trace k r := by
  unfold rowsFor
  rw [List.getD_eq_getElem?_getD, List.getElem?_map,
    List.getElem?_eq_getElem (by simpa using h)]
  simp

theorem rowsFor_getD_ge {trace : List Record} {k : ColumnKey} {n r : Nat}
    (h : n ≤ r) : (rowsFor trace k n).getD r [] = [] := by
  unfold rowsFor
  rw [List.getD_eq_getElem?_getD, List.getElem?_eq_none (by simpa using h)]
  rfl

theorem rowsFor_flatten_category {trace : List Record} {k : ColumnKey} {n : Nat}
    {v : ColumnValue} (h : v ∈ (rowsFor trace k n).flatten) : v.category = k.cat := by
  obtain ⟨row, hrow, hv⟩ := List.mem_flatten.mp h
  obtain ⟨r, hr, rfl⟩ := List.mem_map.mp hrow
  exact recordedAt_category hv

/-- Round-trip correctness of the serialize/open pipeline without
permutation: reading any (row, name, category) of the opened columnar yields
exactly the logical values recorded there, in insertion order. -/
theorem readValues_serializeColumnar {trace : List Record} {n : Nat}
    (hlegal : ∀ rec ∈ trace, rec.row < n) (k : ColumnKey) (r : Nat) :
    readValues (serializeColumnar trace n) k r =
      (recordedAt trace k r).map ColumnValue.toLogical := by
  unfold readValues
  rw [findColumn_serialize]
  by_cases h : k ∈ observedKeys trace
  · simp only [h, if_true]
    rw [valuesForRow_buildColumn]
    have hdict : (buildColumn k.cat (rowsFor trace k n)).dict =
        (if k.cat = .str ∨ k.cat = .bytes then
          finalizeDictionary (termsOfRows (rowsFor trace k n)) else []) := rfl
    rw [hdict, List.map_map]
    by_cases hr : r < n
    · rw [rowsFor_getD_lt hr]
      apply List.map_congr_left
      intro v hv
      have hvflat : v ∈ (rowsFor trace k n).flatten := by
        apply List.mem_flatten.mpr
        refine ⟨recordedAt trace k r, ?_, hv⟩
        exact List.mem_map.mpr ⟨r, by simpa using hr, rfl⟩
      exact decodeCell_encodeCell hvflat (recordedAt_category hv)
    · rw [rowsFor_getD_ge (Nat.le_of_not_lt hr),
        recordedAt_of_ge hlegal (Nat.le_of_not_lt hr)]
      rfl
  · simp only [h, if_false]
    rw [recordedAt_of_not_observed h]
    rfl

/-! ### Round-trip with a row permutation -/

theorem findIndexNat_getElem {l : List Nat} (hnd : l.Nodup) {i : Nat}
    (h : i < l.length) : findIndexNat l l[i] = some i := by
  induction l generalizing i with
  | nil => simp at h
  | cons a as ih =>
    cases i with
    | zero => simp [findIndexNat]
    | succ i =>
      have hi : i < as.length := by simpa using h
      have hne : a ≠ as[i] := by
        intro he
        exact (List.nodup_cons.mp hnd).1 (he ▸ List.getElem_mem hi)
      simp only [List.getElem_cons_succ, findIndexNat, hne, if_false]
      rw [ih (List.nodup_cons.mp hnd).2 hi]
      rfl

theorem permuteRows_getD {perm : List Nat} {n : Nat}
    (hperm : List.Perm perm (List.range n)) {rows : List (List ColumnValue)}
    (hlen : rows.length = n) {old : Nat} (hold : old < n) :
    (permuteRows perm rows).getD (perm.getD old 0) [] = rows.getD old [] := by
  have hplen : perm.length = n := by
    rw [hperm.length_eq, List.length_range]
  have hnd : perm.Nodup := hperm.nodup_iff.mpr (List.nodup_range n)
  have holdp : old < perm.length := by omega
  have hgetD : perm.getD old 0 = perm[old] := List.getD_eq_getElem perm 0 holdp
  have hmem : perm[old] ∈ List.range n := hperm.subset (List.getElem_mem holdp)
  have hnew : perm[old] < n := List.mem_range.mp hmem
  rw [hgetD]
  unfold permuteRows
  rw [List.getD_eq_getElem?_getD, List.getElem?_map,
    List.getElem?_eq_getElem (by simpa [hlen] using hnew)]
  simp only [Option.map_some', Option.getD_some]
  rw [List.getElem_range, findIndexNat_getElem hnd holdp]

theorem permuteRows_length (perm : List Nat) (rows : List (List ColumnValue)) :
    (permuteRows perm rows).length = rows.length := by
  unfold permuteRows
  rw [List.length_map, List.length_range]

theorem permuteRows_flatten_subset {perm : List Nat}
    {rows : List (List ColumnValue)} {v : ColumnValue}
    (h : v ∈ (permuteRows perm rows).flatten) : v ∈ rows.flatten := by
  obtain ⟨row, hrow, hv⟩ := List.mem_flatten.mp h
  unfold permuteRows at hrow
  obtain ⟨i, hi, heq⟩ := List.mem_map.mp hrow
  rw [← heq] at hv
  rcases hfind : findIndexNat perm i with _ | oldRow
  · rw [hfind] at hv
    simp at hv
  · rw [hfind] at hv
    change v ∈ rows.getD oldRow [] at hv
    by_cases hlt : oldRow < rows.length
    · apply List.mem_flatten.mpr
      refine ⟨rows.getD oldRow [], ?_, hv⟩
      rw [List.getD_eq_getElem rows [] hlt]
      exact List.getElem_mem hlt
    · rw [List.getD_eq_getElem?_getD,
        List.getElem?_eq_none (Nat.le_of_not_lt hlt)] at hv
      simp at hv

theorem findColumn_serializePerm (trace : List Record) (n : Nat)
    (perm : List Nat) (k : ColumnKey) :
    findColumn (serializeColumnarPerm trace n perm) k =
      if k ∈ observedKeys trace then
        some (buildColumn k.cat (permuteRows perm (rowsFor trace k n)))
      else none := by
  unfold findColumn serializeColumnarPerm
  rw [List.find?_map]
  by_cases h : k ∈ observedKeys trace
  · rw [show ((fun p : ColumnKey × SColumn => decide (p.1 = k)) ∘ fun k' =>
        (k', buildColumn k'.cat (permuteRows perm (rowsFor trace k' n)))) =
        fun k' => decide (k' = k) from rfl]
    rw [find?_eq_of_mem (mem_sortKeys.mpr h)]
    simp [h]
  · rw [show ((fun p : ColumnKey × SColumn => decide (p.1 = k)) ∘ fun k' =>
        (k', buildColumn k'.cat (permuteRows perm (rowsFor trace k' n)))) =
        fun k' => decide (k' = k) from rfl]
    rw [find?_eq_none_of_not_mem (fun hm => h (mem_sortKeys.mp hm))]
    simp [h]

/-- Round-trip correctness of the serialize/open pipeline with an old-to-new
row permutation: reading row `perm[old]` of the opened columnar yields
exactly the logical values recorded at row `old`. -/
theorem readValues_serializeColumnarPerm {trace : List Record} {n : Nat}
    {perm : List Nat} (hperm : List.Perm perm (List.range n)) (k : ColumnKey)
    {old : Nat} (hold : old < n) :
    readValues (serializeColumnarPerm trace n perm) k (perm.getD old 0) =
      (recordedAt trace k old).map ColumnValue.toLogical := by
  unfold readValues
  rw [findColumn_serializePerm]
  by_cases h : k ∈ observedKeys trace
  · simp only [h, if_true]
    rw [valuesForRow_buildColumn]
    have hdict : (buildColumn k.cat (permuteRows perm (rowsFor trace k n))).dict =
        (if k.cat = .str ∨ k.cat = .bytes then
          finalizeDictionary (termsOfRows (permuteRows perm (rowsFor trace k n)))
        else []) := rfl
    rw [hdict, List.map_map]
    rw [permuteRows_getD hperm (rowsFor_length trace k n) hold, rowsFor_getD_lt hold]
    apply List.map_congr_left
    intro v hv
    have hvflat : v ∈ (permuteRows perm (rowsFor trace k n)).flatten := by
      apply List.mem_flatten.mpr
      refine ⟨recordedAt trace k old, ?_, hv⟩
      rw [← rowsFor_getD_lt hold,
        ← permuteRows_getD hperm (rowsFor_length trace k n) hold]
      have hplen : perm.length = n := by
        rw [hperm.length_eq, List.length_range]
      have hnew : perm.getD old 0 < (permuteRows perm (rowsFor trace k n)).length := by
        rw [permuteRows_length, rowsFor_length]
        have holdp : old < perm.length := by omega
        rw [List.getD_eq_getElem perm 0 holdp]
        exact List.mem_range.mp (hperm.subset (List.getElem_mem holdp))
      rw [List.getD_eq_getElem _ [] hnew]
      exact List.getElem_mem hnew
    exact decodeCell_encodeCell hvflat
      (rowsFor_flatten_category (permuteRows_flatten_subset hvflat))
  · simp only [h, if_false]
    rw [recordedAt_of_not_observed h]
    rfl

/-! ### Reads past the row universe -/

theorem listColumns_serializeColumnar (trace : List Record) (n : Nat) :
    listColumns (serializeColumnar trace n) = sortKeys (observedKeys trace) := by
  unfold listColumns serializeColumnar
  rw [List.map_map]
  exact List.map_id _

theorem firstCell_of_mem_past_numRows {trace : List Record} {n : Nat}
    {k : ColumnKey} {col : SColumn}
    (hcol : (k, col) ∈ (serializeColumnar trace n).columns) {row : Nat}
    (hrow : n ≤ row) : firstCell col row = none := by
  obtain ⟨k2, hk2, heq⟩ := List.mem_map.mp hcol
  obtain ⟨hkk, hcc⟩ := Prod.mk.injEq .. ▸ heq
  subst hkk
  unfold firstCell
  rw [← hcc, valuesForRow_buildColumn, rowsFor_getD_ge hrow]
  rfl

/-! ### Cardinality minimality -/

theorem inferCardinality_fits (counts : List Nat) :
    (inferCardinality counts).fitsCounts counts := by
  unfold inferCardinality
  by_cases h1 : counts.all (· = 1)
  · simp only [h1, if_true]
    intro c hc
    simpa using List.all_eq_true.mp h1 c hc
  · simp only [h1, if_false, Bool.false_eq_true]
    by_cases h2 : counts.all (· ≤ 1)
    · simp only [h2, if_true]
      intro c hc
      simpa using List.all_eq_true.mp h2 c hc
    · simp only [h2, if_false, Bool.false_eq_true]
      trivial

theorem inferCardinality_minimal (counts : List Nat) (c : Cardinality)
    (hc : c.fitsCounts counts) :
    (inferCardinality counts).rank ≤ c.rank := by
  unfold inferCardinality
  by_cases h1 : counts.all (· = 1)
  · simp [h1, Cardinality.rank]
  · simp only [h1, if_false, Bool.false_eq_true]
    by_cases h2 : counts.all (· ≤ 1)
    · simp only [h2, if_true]
      cases c with
      | required =>
        exfalso
        apply h1
        rw [List.all_eq_true]
        intro x hx
        simpa using hc x hx
      | optional => exact Nat.le_refl _
      | multivalued => exact Nat.le_of_lt (by simp [Cardinality.rank])
    · simp only [h2, if_false, Bool.false_eq_true]
      cases c with
      | required =>
        exfalso
        apply h2
        rw [List.all_eq_true]
        intro x hx
        simp [hc x hx]
      | optional =>
        exfalso
        apply h2
        rw [List.all_eq_true]
        intro x hx
        simpa using hc x hx
      | multivalued => exact Nat.le_refl _

/-! ### Strictly sorted dictionaries -/

theorem bytesLtB_irrefl (x : List Nat) : bytesLtB x x = false := by
  cases h : bytesLtB x x
  · rfl
  · exact absurd rfl (bytesLtB_iff.mp h).2

theorem finalizeDictionary_sorted (terms : List (List Nat)) :
    List.Sorted bytesLe (finalizeDictionary terms) :=
  List.sorted_insertionSort bytesLe terms.dedup

theorem finalizeDictionary_nodup (terms : List (List Nat)) :
    (finalizeDictionary terms).Nodup :=
  (List.perm_insertionSort bytesLe terms.dedup).nodup_iff.mpr (List.nodup_dedup terms)

theorem sorted_nodup_lt_iff {dict : List (List Nat)}
    (hs : List.Sorted bytesLe dict) (hnd : dict.Nodup) {i j : Nat}
    (hi : i < dict.length) (hj : j < dict.length) :
    bytesLtB dict[i] dict[j] = true ↔ i < j := by
  constructor
  · intro h
    rcases Nat.lt_trichotomy i j with hij | hij | hij
    · exact hij
    · subst hij
      rw [bytesLtB_irrefl] at h
      cases h
    · exfalso
      have hle : bytesLe dict[j] dict[i] := List.Sorted.rel_get_of_lt hs (by simpa using hij)
      have heq : dict[j] = dict[i] := bytesLeB_antisymm hle (bytesLtB_iff.mp h).1
      have : j = i := (List.Nodup.getElem_inj_iff hnd).mp heq
      omega
  · intro h
    have hle : bytesLe dict[i] dict[j] := List.Sorted.rel_get_of_lt hs (by simpa using h)
    have hne : dict[i] ≠ dict[j] := by
      intro he
      have : i = j := (List.Nodup.getElem_inj_iff hnd).mp he
      omega
    exact bytesLtB_iff.mpr ⟨hle, hne⟩

/-! ### Directory characterization and determinism -/

theorem mem_observedKeys {trace : List Record} {k : ColumnKey} :
    k ∈ observedKeys trace ↔ ∃ rec ∈ trace, rec.key = k := by
  unfold observedKeys
  rw [List.mem_dedup, List.mem_map]

theorem sortKeys_sorted (ks : List ColumnKey) : List.Sorted keyLe (sortKeys ks) :=
  List.sorted_insertionSort keyLe ks

theorem sortKeys_eq_of_perm {ks1 ks2 : List ColumnKey} (h : List.Perm ks1 ks2) :
    sortKeys ks1 = sortKeys ks2 :=
  List.eq_of_perm_of_sorted
    ((List.perm_insertionSort keyLe ks1).trans
      (h.trans (List.perm_insertionSort keyLe ks2).symm))
    (sortKeys_sorted ks1) (sortKeys_sorted ks2)

theorem observedKeys_perm {t1 t2 : List Record} (h : List.Perm t1 t2) :
    List.Perm (observedKeys t1) (observedKeys t2) :=
  (h.map Record.key).dedup

theorem listColumns_nodup (trace : List Record) (n : Nat) :
    (listColumns (serializeColumnar trace n)).Nodup := by
  rw [listColumns_serializeColumnar]
  exact (List.perm_insertionSort keyLe (observedKeys trace)).nodup_iff.mpr
    (List.nodup_dedup _)

theorem columnTypeFor_category (cat : ColumnTypeCategory) (nt : NumericalType) :
    (columnTypeFor cat nt).category = cat := by
  cases cat <;> first
    | rfl
    | (cases nt <;> rfl)

theorem mem_columns_serialize {trace : List Record} {n : Nat} {k : ColumnKey}
    {col : SColumn} (h : (k, col) ∈ (serializeColumnar trace n).columns) :
    col = buildColumn k.cat (rowsFor trace k n) ∧ k ∈ observedKeys trace := by
  obtain ⟨k2, hk2, heq⟩ := List.mem_map.mp h
  obtain ⟨hkk, hcc⟩ := Prod.mk.injEq .. ▸ heq
  subst hkk
  exact ⟨hcc.symm, mem_sortKeys.mp hk2⟩

/-! ### Coercion algebra for merging (spec sections 4.1 and 4.8) -/

/-- The recordable value a stored value decodes to: numericals come back
coerced to the column's stored type, all other payloads unchanged. -/
def reprojectValue (nt : NumericalType) : ColumnValue → ColumnValue
  | .numerical m => .numerical (coerceNumerical nt m)
  | v => v

/-- Whether a value is exactly representable in a stored numerical type. -/
def fitsType : NumericalType → NumericalValue → Bool
  | .i64, m => m.fitsI64
  | .u64, m => m.fitsU64
  | .f64, _ => true

theorem fits_infer_of_mem {vals : List NumericalValue} {m : NumericalValue}
    (h : m ∈ vals) : fitsType (inferNumericalType vals) m = true := by
  unfold inferNumericalType
  by_cases h1 : vals.any NumericalValue.isF64
  · simp [h1, fitsType]
  · simp only [h1, if_false, Bool.false_eq_true]
    by_cases h2 : vals.all NumericalValue.fitsI64
    · simp only [h2, if_true, fitsType]
      exact List.all_eq_true.mp h2 m h
    · simp only [h2, if_false, Bool.false_eq_true]
      by_cases h3 : vals.all NumericalValue.fitsU64
      · simp only [h3, if_true, fitsType]
        exact List.all_eq_true.mp h3 m h
      · simp [h3, fitsType]

theorem coerce_preserves_fitsI64 {nt : NumericalType} {m : NumericalValue}
    (hnt : nt ≠ .f64) (hfit : fitsType nt m = true) (hrange : m.inRange = true) :
    (coerceNumerical nt m).fitsI64 = m.fitsI64 := by
  cases nt with
  | f64 => exact absurd rfl hnt
  | i64 =>
    cases m with
    | u64 v =>
      simp only [fitsType, NumericalValue.fitsI64, decide_eq_true_eq] at hfit
      simp [coerceNumerical, NumericalValue.fitsI64, hfit]
    | i64 v => rfl
    | f64 q => simp [fitsType, NumericalValue.fitsI64] at hfit
  | u64 =>
    cases m with
    | u64 v => rfl
    | i64 v =>
      simp only [fitsType, NumericalValue.fitsU64, decide_eq_true_eq] at hfit
      simp only [NumericalValue.inRange, decide_eq_true_eq] at hrange
      simp only [coerceNumerical, NumericalValue.fitsI64, decide_eq_true_eq]
      have h1 : (v.toNat : Int) = v := Int.toNat_of_nonneg hfit
      rw [h1]
      simp [hrange.2]
    | f64 q => simp [fitsType, NumericalValue.fitsU64] at hfit

theorem coerce_preserves_fitsU64 {nt : NumericalType} {m : NumericalValue}
    (hnt : nt ≠ .f64) (hfit : fitsType nt m = true) :
    (coerceNumerical nt m).fitsU64 = m.fitsU64 := by
  cases nt with
  | f64 => exact absurd rfl hnt
  | i64 =>
    cases m with
    | u64 v => simp [coerceNumerical, NumericalValue.fitsU64]
    | i64 v => rfl
    | f64 q => simp [fitsType, NumericalValue.fitsI64] at hfit
  | u64 =>
    cases m with
    | u64 v => rfl
    | i64 v =>
      simp only [fitsType, NumericalValue.fitsU64, decide_eq_true_eq] at hfit
      simp [coerceNumerical, NumericalValue.fitsU64, hfit]
    | f64 q => simp [fitsType, NumericalValue.fitsU64] at hfit

theorem coerce_not_isF64 {nt : NumericalType} {m : NumericalValue}
    (hnt : nt ≠ .f64) (hfit : fitsType nt m = true) :
    (coerceNumerical nt m).isF64 = false ∧ m.isF64 = false := by
  cases nt with
  | f64 => exact absurd rfl hnt
  | i64 =>
    cases m with
    | u64 v => simp [coerceNumerical, NumericalValue.isF64]
    | i64 v => simp [coerceNumerical, NumericalValue.isF64]
    | f64 q => simp [fitsType, NumericalValue.fitsI64] at hfit
  | u64 =>
    cases m with
    | u64 v => simp [coerceNumerical, NumericalValue.isF64]
    | i64 v => simp [coerceNumerical, NumericalValue.isF64]
    | f64 q => simp [fitsType, NumericalValue.fitsU64] at hfit

/-- Re-coercing an already coerced value into any wider stored type agrees
with coercing the original value directly. -/
theorem coerce_coerce {nt t : NumericalType} {m : NumericalValue}
    (hfit : fitsType nt m = true) (hrange : m.inRange = true)
    (hf : nt = .f64 → t = .f64) :
    coerceNumerical t (coerceNumerical nt m) = coerceNumerical t m := by
  cases nt with
  | i64 =>
    cases m with
    | u64 v =>
      cases t with
      | i64 => rfl
      | u64 => simp [coerceNumerical]
      | f64 => simp [coerceNumerical]
    | i64 v => rfl
    | f64 q => simp [fitsType, NumericalValue.fitsI64] at hfit
  | u64 =>
    cases m with
    | u64 v => rfl
    | i64 v =>
      simp only [fitsType, NumericalValue.fitsU64, decide_eq_true_eq] at hfit
      cases t with
      | i64 => simp [coerceNumerical, Int.toNat_of_nonneg hfit]
      | u64 => rfl
      | f64 =>
        simp only [coerceNumerical, NumericalValue.f64.injEq]
        exact_mod_cast congrArg (fun z : Int => (z : Rat)) (Int.toNat_of_nonneg hfit)
    | f64 q => simp [fitsType, NumericalValue.fitsU64] at hfit
  | f64 =>
    rw [hf rfl]
    cases m <;> rfl

/-- Coercing every value of one input column into that column's inferred
stored type, as reading a serialized column does. -/
def coerceSeg (s : List NumericalValue) : List NumericalValue :=
  s.map (coerceNumerical (inferNumericalType s))

theorem infer_f64_nonempty {s : List NumericalValue}
    (h : inferNumericalType s = .f64) : s ≠ [] := by
  intro he
  subst he
  simp [inferNumericalType] at h

theorem infer_eq_f64_iff {s : List NumericalValue} :
    inferNumericalType s = .f64 ↔
      s.any NumericalValue.isF64 = true ∨
        (s.all NumericalValue.fitsI64 = false ∧ s.all NumericalValue.fitsU64 = false) := by
  unfold inferNumericalType
  by_cases h1 : s.any NumericalValue.isF64
  · simp [h1]
  · simp only [h1, if_false, Bool.false_eq_true]
    by_cases h2 : s.all NumericalValue.fitsI64
    · simp [h1, h2]
    · simp only [h2, if_false, Bool.false_eq_true]
      by_cases h3 : s.all NumericalValue.fitsU64
      · simp [h1, h2, h3]
      · simp [h1, h2, h3]

theorem infer_flatten_f64 {segs : List (List NumericalValue)}
    {s : List NumericalValue} (hs : s ∈ segs)
    (h : inferNumericalType s = .f64) :
    inferNumericalType segs.flatten = .f64 := by
  rcases infer_eq_f64_iff.mp h with hany | ⟨hi, hu⟩
  · obtain ⟨m, hm, hmf⟩ := List.any_eq_true.mp hany
    apply infer_eq_f64_iff.mpr
    exact Or.inl (List.any_eq_true.mpr ⟨m, List.mem_flatten.mpr ⟨s, hs, hm⟩, hmf⟩)
  · apply infer_eq_f64_iff.mpr
    by_cases hany : segs.flatten.any NumericalValue.isF64 = true
    · exact Or.inl hany
    · right
      constructor
      · rw [List.all_eq_false] at hi ⊢
        obtain ⟨m, hm, hmf⟩ := hi
        exact ⟨m, List.mem_flatten.mpr ⟨s, hs, hm⟩, hmf⟩
      · rw [List.all_eq_false] at hu ⊢
        obtain ⟨m, hm, hmf⟩ := hu
        exact ⟨m, List.mem_flatten.mpr ⟨s, hs, hm⟩, hmf⟩

theorem mem_flatten_coerceSeg {segs : List (List NumericalValue)}
    {x : NumericalValue} :
    x ∈ (segs.map coerceSeg).flatten ↔
      ∃ s ∈ segs, ∃ m ∈ s, x = coerceNumerical (inferNumericalType s) m := by
  rw [List.mem_flatten]
  constructor
  · rintro ⟨c, hc, hx⟩
    obtain ⟨s, hs, rfl⟩ := List.mem_map.mp hc
    obtain ⟨m, hm, rfl⟩ := List.mem_map.mp hx
    exact ⟨s, hs, m, hm, rfl⟩
  · rintro ⟨s, hs, m, hm, rfl⟩
    exact ⟨coerceSeg s, List.mem_map.mpr ⟨s, hs, rfl⟩, List.mem_map.mpr ⟨m, hm, rfl⟩⟩

/-- Re-inferring the stored numerical type from the coerced values of several
stacked input columns agrees with inferring it from the raw recorded values:
the merge engine's type lattice is consistent with the writer's. -/
theorem infer_flatten_coerceSeg (segs : List (List NumericalValue))
    (hrange : ∀ s ∈ segs, ∀ m ∈ s, m.inRange = true) :
    inferNumericalType ((segs.map coerceSeg).flatten) =
      inferNumericalType segs.flatten := by
  by_cases hf : ∃ s ∈ segs, inferNumericalType s = NumericalType.f64
  · obtain ⟨s, hs, hsf⟩ := hf
    rw [infer_flatten_f64 hs hsf]
    obtain ⟨m, hm⟩ : ∃ m, m ∈ s := by
      cases s with
      | nil => exact absurd rfl (infer_f64_nonempty hsf)
      | cons a t => exact ⟨a, by simp⟩
    have hmem : coerceNumerical .f64 m ∈ (segs.map coerceSeg).flatten := by
      apply mem_flatten_coerceSeg.mpr
      exact ⟨s, hs, m, hm, by rw [hsf]⟩
    have hisf : (coerceNumerical .f64 m).isF64 = true := by
      cases m <;> rfl
    apply infer_eq_f64_iff.mpr
    exact Or.inl (List.any_eq_true.mpr ⟨_, hmem, hisf⟩)
  · push_neg at hf
    have hany1 : ((segs.map coerceSeg).flatten).any NumericalValue.isF64 = false := by
      rw [List.any_eq_false]
      intro x hx
      obtain ⟨s, hs, m, hm, rfl⟩ := mem_flatten_coerceSeg.mp hx
      have := (coerce_not_isF64 (hf s hs) (fits_infer_of_mem hm)).1
      simp [this]
    have hany2 : (segs.flatten).any NumericalValue.isF64 = false := by
      rw [List.any_eq_false]
      intro m hm
      obtain ⟨s, hs, hms⟩ := List.mem_flatten.mp hm
      have := (coerce_not_isF64 (hf s hs) (fits_infer_of_mem hms)).2
      simp [this]
    have hboolext : ∀ (a b : Bool), (a = true ↔ b = true) → a = b := by decide
    have hallI : ((segs.map coerceSeg).flatten).all NumericalValue.fitsI64 =
        (segs.flatten).all NumericalValue.fitsI64 := by
      apply hboolext
      rw [List.all_eq_true, List.all_eq_true]
      constructor
      · intro h m hm
        obtain ⟨s, hs, hms⟩ := List.mem_flatten.mp hm
        have := h _ (mem_flatten_coerceSeg.mpr ⟨s, hs, m, hms, rfl⟩)
        rwa [coerce_preserves_fitsI64 (hf s hs) (fits_infer_of_mem hms)
          (hrange s hs m hms)] at this
      · intro h x hx
        obtain ⟨s, hs, m, hm, rfl⟩ := mem_flatten_coerceSeg.mp hx
        rw [coerce_preserves_fitsI64 (hf s hs) (fits_infer_of_mem hm)
          (hrange s hs m hm)]
        exact h m (List.mem_flatten.mpr ⟨s, hs, hm⟩)
    have hallU : ((segs.map coerceSeg).flatten).all NumericalValue.fitsU64 =
        (segs.flatten).all NumericalValue.fitsU64 := by
      apply hboolext
      rw [List.all_eq_true, List.all_eq_true]
      constructor
      · intro h m hm
        obtain ⟨s, hs, hms⟩ := List.mem_flatten.mp hm
        have := h _ (mem_flatten_coerceSeg.mpr ⟨s, hs, m, hms, rfl⟩)
        rwa [coerce_preserves_fitsU64 (hf s hs) (fits_infer_of_mem hms)] at this
      · intro h x hx
        obtain ⟨s, hs, m, hm, rfl⟩ := mem_flatten_coerceSeg.mp hx
        rw [coerce_preserves_fitsU64 (hf s hs) (fits_infer_of_mem hm)]
        exact h m (List.mem_flatten.mpr ⟨s, hs, hm⟩)
    unfold inferNumericalType
    rw [hany1, hany2, hallI, hallU]

/-! ### Structural facts about reprojected rows -/

theorem numPayload_reproject (nt : NumericalType) (v : ColumnValue) :
    (reprojectValue nt v).numPayload = v.numPayload.map (coerceNumerical nt) := by
  cases v <;> rfl

theorem termPayload_reproject (nt : NumericalType) (v : ColumnValue) :
    (reprojectValue nt v).termPayload = v.termPayload := by
  cases v <;> rfl

theorem numsOfRows_reproject (nt : NumericalType) (rows : List (List ColumnValue)) :
    numsOfRows (rows.map (List.map (reprojectValue nt))) =
      (numsOfRows rows).map (coerceNumerical nt) := by
  unfold numsOfRows
  rw [← List.map_flatten, List.filterMap_map, List.map_filterMap]
  apply List.filterMap_congr
  intro v hv
  rw [Function.comp_apply, numPayload_reproject]

theorem termsOfRows_reproject (nt : NumericalType) (rows : List (List ColumnValue)) :
    termsOfRows (rows.map (List.map (reprojectValue nt))) = termsOfRows rows := by
  unfold termsOfRows
  rw [← List.map_flatten, List.map_map]
  apply List.map_congr_left
  intro v hv
  rw [Function.comp_apply, termPayload_reproject]

theorem counts_reproject (nt : NumericalType) (rows : List (List ColumnValue)) :
    (rows.map (List.map (reprojectValue nt))).map List.length = rows.map List.length := by
  rw [List.map_map]
  apply List.map_congr_left
  intro row hrow
  simp

theorem numsOfRows_append (a b : List (List ColumnValue)) :
    numsOfRows (a ++ b) = numsOfRows a ++ numsOfRows b := by
  unfold numsOfRows
  rw [List.flatten_append, List.filterMap_append]

theorem termsOfRows_append (a b : List (List ColumnValue)) :
    termsOfRows (a ++ b) = termsOfRows a ++ termsOfRows b := by
  unfold termsOfRows
  rw [List.flatten_append, List.map_append]

theorem numsOfRows_flatten (segs : List (List (List ColumnValue))) :
    numsOfRows segs.flatten = (segs.map numsOfRows).flatten := by
  induction segs with
  | nil => rfl
  | cons s rest ih =>
    rw [List.flatten_cons, numsOfRows_append, ih, List.map_cons, List.flatten_cons]

theorem termsOfRows_flatten (segs : List (List (List ColumnValue))) :
    termsOfRows segs.flatten = (segs.map termsOfRows).flatten := by
  induction segs with
  | nil => rfl
  | cons s rest ih =>
    rw [List.flatten_cons, termsOfRows_append, ih, List.map_cons, List.flatten_cons]

/-- Two row streams with the same per-row counts, observed terms, inferred
numerical type and encoded cells serialize to the same column. -/
theorem buildColumn_congr {cat : ColumnTypeCategory}
    {rows1 rows2 : List (List ColumnValue)}
    (hterms : termsOfRows rows1 = termsOfRows rows2)
    (hnt : inferNumericalType (numsOfRows rows1) =
      inferNumericalType (numsOfRows rows2))
    (hcells : rows1.map (List.map (encodeCell (finalizeDictionary (termsOfRows rows2))
        (inferNumericalType (numsOfRows rows2)))) =
      rows2.map (List.map (encodeCell (finalizeDictionary (termsOfRows rows2))
        (inferNumericalType (numsOfRows rows2)))))
    (hcounts : rows1.map List.length = rows2.map List.length) :
    buildColumn cat rows1 = buildColumn cat rows2 := by
  have hlen : rows1.length = rows2.length := by
    have := congrArg List.length hcounts
    simpa using this
  unfold buildColumn
  dsimp only
  rw [hterms, hnt, hcells, hcounts, hlen]

/-- Serializing the per-input coerced value streams of stacked inputs yields
the same column as serializing the raw concatenated stream: decode-then-merge
loses nothing. -/
theorem buildColumn_reproject (cat : ColumnTypeCategory)
    (segs : List (List (List ColumnValue)))
    (hrange : ∀ s ∈ segs, ∀ m ∈ numsOfRows s, m.inRange = true) :
    buildColumn cat ((segs.map fun s =>
      s.map (List.map (reprojectValue (inferNumericalType (numsOfRows s))))).flatten) =
      buildColumn cat segs.flatten := by
  apply buildColumn_congr
  · rw [termsOfRows_flatten, termsOfRows_flatten, List.map_map]
    congr 1
    apply List.map_congr_left
    intro s hs
    exact termsOfRows_reproject _ s
  · rw [numsOfRows_flatten, numsOfRows_flatten, List.map_map]
    have hstep : (segs.map (numsOfRows ∘ fun s =>
        s.map (List.map (reprojectValue (inferNumericalType (numsOfRows s)))))) =
        (segs.map numsOfRows).map coerceSeg := by
      rw [List.map_map]
      apply List.map_congr_left
      intro s hs
      rw [Function.comp_apply, Function.comp_apply, numsOfRows_reproject]
      rfl
    rw [hstep]
    apply infer_flatten_coerceSeg
    intro s2 hs2 m hm
    obtain ⟨s, hs, rfl⟩ := List.mem_map.mp hs2
    exact hrange s hs m hm
  · rw [List.map_flatten, List.map_flatten, List.map_map]
    congr 1
    apply List.map_congr_left
    intro s hs
    rw [Function.comp_apply, List.map_map]
    apply List.map_congr_left
    intro row hrow
    rw [Function.comp_apply, List.map_map]
    apply List.map_congr_left
    intro v hv
    rw [Function.comp_apply]
    cases v with
    | numerical m =>
      have hmem : m ∈ numsOfRows s := by
        apply List.mem_filterMap.mpr
        exact ⟨.numerical m, List.mem_flatten.mpr ⟨row, hrow, hv⟩, rfl⟩
      have hfit := fits_infer_of_mem hmem
      have hrangem := hrange s hs m hmem
      have hf : inferNumericalType (numsOfRows s) = .f64 →
          inferNumericalType (numsOfRows segs.flatten) = .f64 := by
        intro hsf
        rw [numsOfRows_flatten]
        exact infer_flatten_f64 (List.mem_map.mpr ⟨s, hs, rfl⟩) hsf
      simp only [reprojectValue, encodeCell]
      rw [coerce_coerce hfit hrangem hf]
    | str t => rfl
    | bytes t => rfl
    | bool b => rfl
    | ipAddr v2 => rfl
    | dateTime v2 => rfl
  · rw [List.map_flatten, List.map_flatten, List.map_map]
    congr 1
    apply List.map_congr_left
    intro s hs
    rw [Function.comp_apply]
    exact counts_reproject _ s

/-! ### Decoding a serialized column back to value streams -/

theorem map_range_getD {α : Type} (f : Nat → α) (d : α) {n r : Nat} (h : r < n) :
    ((List.range n).map f).getD r d = f r := by
  rw [List.getD_eq_getElem?_getD, List.getElem?_map,
    List.getElem?_eq_getElem (by simpa using h)]
  simp

theorem rowsFor_not_observed {trace : List Record} {k : ColumnKey} {n : Nat}
    (h : k ∉ observedKeys trace) : rowsFor trace k n = List.replicate n [] := by
  unfold rowsFor
  have hlen : ((List.range n).map (recordedAt trace k)).length = n := by simp
  nth_rewrite 2 [← hlen]
  apply List.eq_replicate_of_mem
  intro row hrow
  obtain ⟨r, hr, rfl⟩ := List.mem_map.mp hrow
  exact recordedAt_of_not_observed h

theorem cellToColumnValue_encodeCell {cat : ColumnTypeCategory}
    {rows : List (List ColumnValue)} {v : ColumnValue}
    (hv : v ∈ rows.flatten) (hcat : v.category = cat) :
    cellToColumnValue cat
      (if cat = .str ∨ cat = .bytes then finalizeDictionary (termsOfRows rows) else [])
      (encodeCell (finalizeDictionary (termsOfRows rows))
        (inferNumericalType (numsOfRows rows)) v) =
      reprojectValue (inferNumericalType (numsOfRows rows)) v := by
  cases v with
  | str t =>
    have hcat2 : cat = .str := by simpa [ColumnValue.category] using hcat.symm
    subst hcat2
    have hmem : t ∈ finalizeDictionary (termsOfRows rows) :=
      mem_finalizeDictionary.mpr (List.mem_map.mpr ⟨.str t, hv, rfl⟩)
    simp only [encodeCell, cellToColumnValue, reprojectValue, eq_self_iff_true,
      true_or, or_true, if_true]
    rw [dict_getD_indexOf hmem]
  | bytes t =>
    have hcat2 : cat = .bytes := by simpa [ColumnValue.category] using hcat.symm
    subst hcat2
    have hmem : t ∈ finalizeDictionary (termsOfRows rows) :=
      mem_finalizeDictionary.mpr (List.mem_map.mpr ⟨.bytes t, hv, rfl⟩)
    simp only [encodeCell, cellToColumnValue, reprojectValue, eq_self_iff_true,
      true_or, or_true, if_true]
    rw [if_neg (by intro h; cases h), dict_getD_indexOf hmem]
  | numerical m => rfl
  | bool b => rfl
  | ipAddr v2 => rfl
  | dateTime v2 => rfl

/-- The per-row value lists a merge reads off one serialized input: the raw
recorded rows, with numericals coerced to the input column's stored type. -/
theorem decodeRowsFor_serialize {trace : List Record} {n : Nat} (k : ColumnKey)
    (hlegal : ∀ rec ∈ trace, rec.row < n) :
    decodeRowsFor (serializeColumnar trace n) k =
      (rowsFor trace k n).map (List.map (reprojectValue
        (inferNumericalType (numsOfRows (rowsFor trace k n))))) := by
  unfold decodeRowsFor
  rw [findColumn_serialize]
  by_cases h : k ∈ observedKeys trace
  · simp only [h, if_true]
    have hnum : (serializeColumnar trace n).numRows = n := rfl
    rw [hnum]
    unfold rowsFor
    rw [List.map_map]
    apply List.map_congr_left
    intro r hr
    have hrn : r < n := List.mem_range.mp hr
    rw [Function.comp_apply, valuesForRow_buildColumn,
      map_range_getD (recordedAt trace k) [] hrn, List.map_map]
    apply List.map_congr_left
    intro v hv
    rw [Function.comp_apply]
    have hvflat : v ∈ ((List.range n).map (recordedAt trace k)).flatten := by
      apply List.mem_flatten.mpr
      exact ⟨recordedAt trace k r, List.mem_map.mpr ⟨r, by simpa using hrn, rfl⟩, hv⟩
    exact cellToColumnValue_encodeCell hvflat (recordedAt_category hv)
  · simp only [h, if_false]
    have hnum : (serializeColumnar trace n).numRows = n := rfl
    rw [hnum, rowsFor_not_observed h, List.map_replicate]
    rfl

/-! ### Document streams, stacked (the tests' merge scenario) -/

theorem docsToTraceFrom_row_bounds {docs : List Doc} {b : Nat} {rec : Record}
    (h : rec ∈ docsToTraceFrom b docs) :
    b ≤ rec.row ∧ rec.row < b + docs.length := by
  induction docs generalizing b with
  | nil => simp [docsToTraceFrom] at h
  | cons doc rest ih =>
    rcases List.mem_append.mp h with h2 | h2
    · obtain ⟨nv, hnv, rfl⟩ := List.mem_map.mp h2
      simp
    · have := ih h2
      constructor
      · omega
      · simp only [List.length_cons]
        omega

theorem docsToTrace_legal (docs : List Doc) :
    ∀ rec ∈ docsToTrace docs, rec.row < docs.length := by
  intro rec h
  have := docsToTraceFrom_row_bounds h
  omega

theorem recordedAt_map_mk (doc : Doc) (b : Nat) (k : ColumnKey) (r : Nat) :
    recordedAt (doc.map fun nv => ⟨b, nv.1, nv.2⟩) k r =
      if r = b then docRecorded doc k else [] := by
  unfold recordedAt docRecorded
  rw [List.filterMap_map]
  by_cases hrb : r = b
  · subst hrb
    rw [if_pos rfl]
    apply List.filterMap_congr
    intro nv hnv
    rw [Function.comp_apply]
    by_cases hc : nv.1 = k.name ∧ nv.2.category = k.cat
    · rw [if_pos, if_pos hc]
      constructor
      · show (⟨nv.1, nv.2.category⟩ : ColumnKey) = k
        rw [hc.1, hc.2]
      · rfl
    · rw [if_neg, if_neg hc]
      rintro ⟨hk, -⟩
      apply hc
      have h1 : nv.1 = k.name := congrArg ColumnKey.name hk
      have h2 : nv.2.category = k.cat := congrArg ColumnKey.cat hk
      exact ⟨h1, h2⟩
  · rw [if_neg hrb, List.filterMap_eq_nil_iff]
    intro nv hnv
    rw [Function.comp_apply, if_neg]
    rintro ⟨-, hb⟩
    exact hrb hb.symm

theorem recordedAt_docsToTraceFrom (docs : List Doc) (b : Nat) (k : ColumnKey)
    (r : Nat) :
    recordedAt (docsToTraceFrom b docs) k r =
      if b ≤ r ∧ r < b + docs.length then
        docRecorded (docs.getD (r - b) []) k
      else [] := by
  induction docs generalizing b with
  | nil =>
    rw [if_neg (by simp)]
    rfl
  | cons doc rest ih =>
    show recordedAt (doc.map (fun nv => ⟨b, nv.1, nv.2⟩) ++
      docsToTraceFrom (b + 1) rest) k r = _
    unfold recordedAt
    rw [List.filterMap_append]
    have h1 := recordedAt_map_mk doc b k r
    have h2 := ih (b + 1)
    unfold recordedAt at h1 h2
    rw [h1, h2]
    by_cases hrb : r = b
    · subst hrb
      rw [if_pos rfl, if_neg (by omega), if_pos (by simp)]
      simp
    · rw [if_neg hrb]
      by_cases hcond : b + 1 ≤ r ∧ r < b + 1 + rest.length
      · rw [if_pos hcond, if_pos (by simp only [List.length_cons]; omega)]
        have hsub : r - b = (r - (b + 1)) + 1 := by omega
        rw [List.nil_append, hsub, List.getD_cons_succ]
      · rw [if_neg hcond, if_neg]
        · rfl
        · simp only [List.length_cons]
          rintro ⟨hle, hlt⟩
          exact hcond ⟨by omega, by omega⟩

theorem rowsFor_docsToTrace (docs : List Doc) (k : ColumnKey) :
    rowsFor (docsToTrace docs) k docs.length =
      docs.map fun d => docRecorded d k := by
  apply List.ext_getElem
  · simp [rowsFor]
  · intro i h1 h2
    have hi : i < docs.length := by simpa [rowsFor] using h1
    unfold rowsFor
    rw [List.getElem_map, List.getElem_map, List.getElem_range]
    unfold docsToTrace
    rw [recordedAt_docsToTraceFrom, if_pos (by omega)]
    congr 1
    rw [Nat.sub_zero, List.getD_eq_getElem docs [] hi]

theorem mem_observedKeys_docsToTraceFrom {docs : List Doc} {b : Nat}
    {k : ColumnKey} :
    k ∈ observedKeys (docsToTraceFrom b docs) ↔
      ∃ doc ∈ docs, ∃ nv ∈ doc, (⟨nv.1, nv.2.category⟩ : ColumnKey) = k := by
  induction docs generalizing b with
  | nil => simp [docsToTraceFrom, observedKeys]
  | cons doc rest ih =>
    rw [mem_observedKeys]
    constructor
    · rintro ⟨rec, hmem, hkey⟩
      rcases List.mem_append.mp hmem with h2 | h2
      · obtain ⟨nv, hnv, rfl⟩ := List.mem_map.mp h2
        exact ⟨doc, by simp, nv, hnv, hkey⟩
      · obtain ⟨d, hd, nv, hnv, hk⟩ :=
          (ih (b := b + 1)).mp (mem_observedKeys.mpr ⟨rec, h2, hkey⟩)
        exact ⟨d, List.mem_cons_of_mem _ hd, nv, hnv, hk⟩
    · rintro ⟨d, hd, nv, hnv, hk⟩
      rcases List.mem_cons.mp hd with rfl | hd2
      · exact ⟨⟨b, nv.1, nv.2⟩,
          List.mem_append.mpr (Or.inl (List.mem_map.mpr ⟨nv, hnv, rfl⟩)), hk⟩
      · obtain ⟨rec, hrec, hrk⟩ := mem_observedKeys.mp
          ((ih (b := b + 1)).mpr ⟨d, hd2, nv, hnv, hk⟩)
        exact ⟨rec, List.mem_append.mpr (Or.inr hrec), hrk⟩

theorem perm_of_nodup_mem_iff {α : Type} [DecidableEq α] {l1 l2 : List α}
    (h1 : l1.Nodup) (h2 : l2.Nodup) (h : ∀ a, a ∈ l1 ↔ a ∈ l2) :
    List.Perm l1 l2 := by
  rw [List.perm_iff_count]
  intro a
  by_cases ha : a ∈ l1
  · rw [List.count_eq_one_of_mem h1 ha, List.count_eq_one_of_mem h2 ((h a).mp ha)]
  · rw [List.count_eq_zero.mpr ha, List.count_eq_zero.mpr (fun hx => ha ((h a).mpr hx))]

theorem merged_keys_eq (dl : List (List Doc)) :
    sortKeys (((dl.map buildColumnarOfDocs).map listColumns).flatten.dedup) =
      sortKeys (observedKeys (docsToTrace dl.flatten)) := by
  apply sortKeys_eq_of_perm
  apply perm_of_nodup_mem_iff (List.nodup_dedup _) (List.nodup_dedup _)
  intro k
  rw [List.mem_dedup]
  constructor
  · intro h
    obtain ⟨cols, hcols, hk⟩ := List.mem_flatten.mp h
    obtain ⟨c, hc, rfl⟩ := List.mem_map.mp hcols
    obtain ⟨docs, hdocs, rfl⟩ := List.mem_map.mp hc
    have hk2 : k ∈ observedKeys (docsToTrace docs) := by
      unfold buildColumnarOfDocs at hk
      rw [listColumns_serializeColumnar] at hk
      exact mem_sortKeys.mp hk
    obtain ⟨doc, hdoc, nv, hnv, hkk⟩ := mem_observedKeys_docsToTraceFrom.mp hk2
    exact mem_observedKeys_docsToTraceFrom.mpr
      ⟨doc, List.mem_flatten.mpr ⟨docs, hdocs, hdoc⟩, nv, hnv, hkk⟩
  · intro h
    obtain ⟨doc, hdoc, nv, hnv, hkk⟩ := mem_observedKeys_docsToTraceFrom.mp h
    obtain ⟨docs, hdocs, hdoc2⟩ := List.mem_flatten.mp hdoc
    apply List.mem_flatten.mpr
    refine ⟨listColumns (buildColumnarOfDocs docs),
      List.mem_map.mpr ⟨buildColumnarOfDocs docs,
        List.mem_map.mpr ⟨docs, hdocs, rfl⟩, rfl⟩, ?_⟩
    unfold buildColumnarOfDocs
    rw [listColumns_serializeColumnar]
    exact mem_sortKeys.mpr
      (mem_observedKeys_docsToTraceFrom.mpr ⟨doc, hdoc2, nv, hnv, hkk⟩)

theorem mem_docRecorded {doc : Doc} {k : ColumnKey} {v : ColumnValue}
    (h : v ∈ docRecorded doc k) : ∃ nv ∈ doc, nv.2 = v := by
  obtain ⟨nv, hnv, hsome⟩ := List.mem_filterMap.mp h
  by_cases hc : nv.1 = k.name ∧ nv.2.category = k.cat
  · rw [if_pos hc] at hsome
    exact ⟨nv, hnv, Option.some.inj hsome⟩
  · rw [if_neg hc] at hsome
    cases hsome

theorem merged_column_eq (dl : List (List Doc)) (k : ColumnKey)
    (hrange : ∀ docs ∈ dl, ∀ doc ∈ docs, ∀ nv ∈ doc,
      ColumnValue.numInRange nv.2 = true) :
    buildColumn k.cat
        (((dl.map buildColumnarOfDocs).map fun c => decodeRowsFor c k).flatten) =
      buildColumn k.cat (rowsFor (docsToTrace dl.flatten) k dl.flatten.length) := by
  have hstep1 : (dl.map buildColumnarOfDocs).map (fun c => decodeRowsFor c k) =
      (dl.map fun docs => docs.map fun d => docRecorded d k).map fun s =>
        s.map (List.map (reprojectValue (inferNumericalType (numsOfRows s)))) := by
    rw [List.map_map, List.map_map]
    apply List.map_congr_left
    intro docs hdocs
    rw [Function.comp_apply, Function.comp_apply]
    show decodeRowsFor (buildColumnarOfDocs docs) k = _
    unfold buildColumnarOfDocs
    rw [decodeRowsFor_serialize k (docsToTrace_legal docs), rowsFor_docsToTrace]
  rw [hstep1]
  have hrange2 : ∀ s ∈ (dl.map fun docs => docs.map fun d => docRecorded d k),
      ∀ m ∈ numsOfRows s, m.inRange = true := by
    intro s hs m hm
    obtain ⟨docs, hdocs, rfl⟩ := List.mem_map.mp hs
    obtain ⟨v, hv, hpay⟩ := List.mem_filterMap.mp hm
    obtain ⟨row, hrow, hvrow⟩ := List.mem_flatten.mp hv
    obtain ⟨doc, hdoc, rfl⟩ := List.mem_map.mp hrow
    obtain ⟨nv, hnv, rfl⟩ := mem_docRecorded hvrow
    have hrm := hrange docs hdocs doc hdoc nv hnv
    cases hval : nv.2 with
    | numerical m2 =>
      rw [hval] at hpay
      have : m2 = m := Option.some.inj hpay
      subst this
      rw [hval] at hrm
      exact hrm
    | str t => rw [hval] at hpay; cases hpay
    | bytes t => rw [hval] at hpay; cases hpay
    | bool b => rw [hval] at hpay; cases hpay
    | ipAddr v2 => rw [hval] at hpay; cases hpay
    | dateTime v2 => rw [hval] at hpay; cases hpay
  rw [buildColumn_reproject k.cat _ hrange2]
  have hstep3 : ((dl.map fun docs => docs.map fun d => docRecorded d k).flatten) =
      (dl.flatten).map fun d => docRecorded d k :=
    (List.map_flatten _ dl).symm
  rw [hstep3, ← rowsFor_docsToTrace]

/-- Stack-merging the serialized columnars of several document streams is
observationally identical to serializing the concatenated stream directly. -/
theorem mergeStack_eq_build (dl : List (List Doc))
    (hrange : ∀ docs ∈ dl, ∀ doc ∈ docs, ∀ nv ∈ doc,
      ColumnValue.numInRange nv.2 = true) :
    mergeStack (dl.map buildColumnarOfDocs) = buildColumnarOfDocs dl.flatten := by
  show Columnar.mk _ _ = _
  have hnum : ((dl.map buildColumnarOfDocs).map Columnar.numRows).sum =
      dl.flatten.length := by
    rw [List.map_map]
    have : (Columnar.numRows ∘ buildColumnarOfDocs) = List.length := by
      funext docs
      rfl
    rw [this, List.length_flatten]
  rw [show buildColumnarOfDocs dl.flatten =
    Columnar.mk dl.flatten.length
      ((sortKeys (observedKeys (docsToTrace dl.flatten))).map fun k =>
        (k, buildColumn k.cat
          (rowsFor (docsToTrace dl.flatten) k dl.flatten.length))) from rfl]
  rw [Columnar.mk.injEq]
  refine ⟨hnum, ?_⟩
  rw [merged_keys_eq dl]
  apply List.map_congr_left
  intro k hk
  rw [Prod.mk.injEq]
  exact ⟨rfl, merged_column_eq dl k hrange⟩

/-! ### Helper predicate for the numerical-type claims -/

def NumericalValue.isU64 : NumericalValue → Bool
  | .u64 _ => true
  | _ => false

/-! ### Concrete traces used by the witnesses (from the shipped tests) -/

def wTraceBool : List Record :=
  [⟨1, [7], .bool false⟩, ⟨3, [7], .bool true⟩]

def wTraceDict : List Record :=
  [⟨1, [1], .str [97]⟩, ⟨3, [1], .str [99]⟩, ⟨3, [2], .str [100]⟩,
   ⟨4, [1], .str [98]⟩]

def wTraceNum : List Record :=
  [⟨1, [5], .numerical (.u64 12)⟩, ⟨2, [5], .numerical (.u64 13)⟩,
   ⟨4, [5], .numerical (.u64 15)⟩]

def wDocsMerge : List (List Doc) :=
  [[], [[([3], ColumnValue.str [97])]]]

/-! ### The claims -/

/-- C1: for every legal writer trace (all recorded rows below `num_rows`)
serialized without permutation, opening the result and invoking the matching
dynamic-column accessor yields, for every row, name and type-category,
exactly the values recorded there in insertion order; rows never written
yield no values. -/
theorem claim_roundtrip_no_permutation {trace : List Record} {n : Nat}
    (hlegal : ∀ rec ∈ trace, rec.row < n) :
    ∀ (k : ColumnKey) (r : Nat),
      readValues (serializeColumnar trace n) k r =
        (recordedAt trace k r).map ColumnValue.toLogical :=
  fun k r => readValues_serializeColumnar hlegal k r

theorem claim_roundtrip_no_permutation_witness :
    (∀ rec ∈ wTraceBool, rec.row < 5) ∧
      (readValues (serializeColumnar wTraceBool 5) ⟨[7], .bool⟩ 3 =
        (recordedAt wTraceBool ⟨[7], .bool⟩ 3).map ColumnValue.toLogical) ∧
      readValues (serializeColumnar wTraceBool 5) ⟨[7], .bool⟩ 3 =
        [.bool true] :=
  ⟨by decide, claim_roundtrip_no_permutation (by decide) ⟨[7], .bool⟩ 3, by decide⟩

/-- C2: stack-merging the readers built from each document stream is
observationally equivalent to building one columnar from the concatenated
stream - identical row count, column directory, and per-column type,
cardinality, dictionary and value streams - including when an input has zero
rows.  Legal traces carry genuine 64-bit numerical payloads. -/
theorem claim_merge_stack_equivalence (dl : List (List Doc))
    (hrange : ∀ docs ∈ dl, ∀ doc ∈ docs, ∀ nv ∈ doc,
      ColumnValue.numInRange nv.2 = true) :
    mergeStack (dl.map buildColumnarOfDocs) = buildColumnarOfDocs dl.flatten :=
  mergeStack_eq_build dl hrange

theorem claim_merge_stack_equivalence_witness :
    (∀ docs ∈ wDocsMerge, ∀ doc ∈ docs, ∀ nv ∈ doc,
      ColumnValue.numInRange nv.2 = true) ∧
      mergeStack (wDocsMerge.map buildColumnarOfDocs) =
        buildColumnarOfDocs wDocsMerge.flatten :=
  ⟨by decide, claim_merge_stack_equivalence wDocsMerge (by decide)⟩

/-- C3: serializing with an old-to-new row permutation `perm` produces a
columnar in which the accessor applied to row `perm[r]` yields exactly the
values recorded at row `r`, with the same multiplicity and insertion
order. -/
theorem claim_roundtrip_with_permutation {trace : List Record} {n : Nat}
    {perm : List Nat} (hperm : List.Perm perm (List.range n)) :
    ∀ (k : ColumnKey) (old : Nat), old < n →
      readValues (serializeColumnarPerm trace n perm) k (perm.getD old 0) =
        (recordedAt trace k old).map ColumnValue.toLogical :=
  fun k old hold => readValues_serializeColumnarPerm hperm k hold

theorem claim_roundtrip_with_permutation_witness :
    List.Perm [2, 0, 1] (List.range 3) ∧ (1 : Nat) < 3 ∧
      readValues (serializeColumnarPerm wTraceBool 3 [2, 0, 1]) ⟨[7], .bool⟩
          ([2, 0, 1].getD 1 0) =
        (recordedAt wTraceBool ⟨[7], .bool⟩ 1).map ColumnValue.toLogical :=
  ⟨by decide, by decide,
    claim_roundtrip_with_permutation (by decide) ⟨[7], .bool⟩ 1 (by decide)⟩

/-- C4 (counterexample): the shipped test `test_dataframe_writer_numerical`
records only `U64` values, yet the serialized column opens as `I64`, not
`U64`: the claim "a homogeneous `U64` column stays `U64`" fails on this
input. -/
theorem claim_u64_column_counterexample :
    (numsOfRows (rowsFor wTraceNum ⟨[5], .numerical⟩ 6)).all
        NumericalValue.isU64 = true ∧
      (findColumn (serializeColumnar wTraceNum 6) ⟨[5], .numerical⟩).map
          SColumn.typ = some ColumnType.i64 ∧
      ¬ (findColumn (serializeColumnar wTraceNum 6) ⟨[5], .numerical⟩).map
          SColumn.typ = some ColumnType.u64 := by
  decide

/-- C4 (amended): a numerical column whose observed values are all `U64` is
stored as `U64` exactly when some observed value exceeds `i64::MAX`;
otherwise it is stored as `I64`. -/
theorem claim_u64_column_amended {trace : List Record} {n : Nat}
    {k : ColumnKey} (hcat : k.cat = .numerical) (hobs : k ∈ observedKeys trace)
    (hall : (numsOfRows (rowsFor trace k n)).all NumericalValue.isU64 = true) :
    (findColumn (serializeColumnar trace n) k).map SColumn.typ =
      some (if (numsOfRows (rowsFor trace k n)).all NumericalValue.fitsI64 then
        ColumnType.i64 else ColumnType.u64) := by
  rw [findColumn_serialize, if_pos hobs]
  have htyp : (buildColumn k.cat (rowsFor trace k n)).typ =
      columnTypeFor k.cat (inferNumericalType (numsOfRows (rowsFor trace k n))) := rfl
  rw [Option.map_some', htyp, hcat]
  have hanyf : (numsOfRows (rowsFor trace k n)).any NumericalValue.isF64 = false := by
    rw [List.any_eq_false]
    intro m hm
    have := List.all_eq_true.mp hall m hm
    cases m with
    | u64 v => simp [NumericalValue.isF64]
    | i64 v => simp [NumericalValue.isU64] at this
    | f64 q => simp [NumericalValue.isU64] at this
  have hallu : (numsOfRows (rowsFor trace k n)).all NumericalValue.fitsU64 = true := by
    rw [List.all_eq_true]
    intro m hm
    have := List.all_eq_true.mp hall m hm
    cases m with
    | u64 v => rfl
    | i64 v => simp [NumericalValue.isU64] at this
    | f64 q => simp [NumericalValue.isU64] at this
  unfold inferNumericalType
  rw [hanyf]
  by_cases hi : (numsOfRows (rowsFor trace k n)).all NumericalValue.fitsI64
  · simp [hi, columnTypeFor]
  · simp [hi, hallu, columnTypeFor]

theorem claim_u64_column_amended_witness :
    (ColumnKey.cat ⟨[5], .numerical⟩ = .numerical) ∧
      (⟨[5], .numerical⟩ : ColumnKey) ∈ observedKeys wTraceNum ∧
      (numsOfRows (rowsFor wTraceNum ⟨[5], .numerical⟩ 6)).all
        NumericalValue.isU64 = true ∧
      (findColumn (serializeColumnar wTraceNum 6) ⟨[5], .numerical⟩).map
          SColumn.typ =
        some (if (numsOfRows (rowsFor wTraceNum ⟨[5], .numerical⟩ 6)).all
            NumericalValue.fitsI64 then ColumnType.i64 else ColumnType.u64) :=
  ⟨by decide, by decide, by decide,
    claim_u64_column_amended (by decide) (by decide) (by decide)⟩

/-- C5: the declared cardinality of every serialized column is the smallest
cardinality containing the observed per-row value counts over all rows of
the universe; in particular a column leaving some row of the universe
untouched is never `Required`. -/
theorem claim_cardinality_minimality {trace : List Record} {n : Nat}
    {k : ColumnKey} {col : SColumn}
    (hmem : (k, col) ∈ (serializeColumnar trace n).columns) :
    col.card.fitsCounts ((rowsFor trace k n).map List.length) ∧
      (∀ c : Cardinality, c.fitsCounts ((rowsFor trace k n).map List.length) →
        col.card.rank ≤ c.rank) ∧
      ((∃ r, r < n ∧ recordedAt trace k r = []) → col.card ≠ .required) := by
  obtain ⟨hcol, -⟩ := mem_columns_serialize hmem
  have hcard : col.card = inferCardinality ((rowsFor trace k n).map List.length) := by
    rw [hcol]
    rfl
  refine ⟨hcard ▸ inferCardinality_fits _, fun c hc => hcard ▸
    inferCardinality_minimal _ c hc, ?_⟩
  rintro ⟨r, hr, hempty⟩ hreq
  have hfits := hcard ▸ inferCardinality_fits ((rowsFor trace k n).map List.length)
  rw [hreq] at hfits
  have hzero : (0 : Nat) ∈ (rowsFor trace k n).map List.length := by
    apply List.mem_map.mpr
    refine ⟨recordedAt trace k r, ?_, by rw [hempty]; rfl⟩
    rw [← rowsFor_getD_lt hr]
    have hlt : r < (rowsFor trace k n).length := by
      rw [rowsFor_length]
      exact hr
    rw [List.getD_eq_getElem _ [] hlt]
    exact List.getElem_mem hlt
  have := hfits 0 hzero
  cases this

theorem claim_cardinality_minimality_witness :
    ((⟨[7], .bool⟩ : ColumnKey),
        buildColumn .bool (rowsFor wTraceBool ⟨[7], .bool⟩ 5)) ∈
        (serializeColumnar wTraceBool 5).columns ∧
      ((buildColumn .bool (rowsFor wTraceBool ⟨[7], .bool⟩ 5)).card.fitsCounts
          ((rowsFor wTraceBool ⟨[7], .bool⟩ 5).map List.length) ∧
        (∀ c : Cardinality,
          c.fitsCounts ((rowsFor wTraceBool ⟨[7], .bool⟩ 5).map List.length) →
            (buildColumn .bool (rowsFor wTraceBool ⟨[7], .bool⟩ 5)).card.rank ≤
              c.rank) ∧
        ((∃ r, r < 5 ∧ recordedAt wTraceBool ⟨[7], .bool⟩ r = []) →
          (buildColumn .bool (rowsFor wTraceBool ⟨[7], .bool⟩ 5)).card ≠
            .required)) :=
  ⟨by decide, claim_cardinality_minimality (by decide)⟩

/-- C6: in every finalized Str/Bytes column the dictionary is strictly
byte-lexicographically increasing in the ordinal - `ord_to_term i <
ord_to_term j` iff `i < j` - its entries are pairwise distinct, and they are
exactly the distinct recorded terms, independent of insertion order. -/
theorem claim_dictionary_ordering {trace : List Record} {n : Nat}
    {k : ColumnKey} {col : SColumn}
    (hmem : (k, col) ∈ (serializeColumnar trace n).columns)
    (hcat : k.cat = .str ∨ k.cat = .bytes) :
    (∀ i, i < col.dict.length → ∀ j, j < col.dict.length →
      (bytesLtB (col.dict.getD i []) (col.dict.getD j []) = true ↔ i < j)) ∧
      col.dict.Nodup ∧
      (∀ t, t ∈ col.dict ↔
        ∃ v ∈ (rowsFor trace k n).flatten, v.termPayload = t) := by
  obtain ⟨hcol, -⟩ := mem_columns_serialize hmem
  have hdict : col.dict = finalizeDictionary (termsOfRows (rowsFor trace k n)) := by
    rw [hcol]
    show (if k.cat = .str ∨ k.cat = .bytes then _ else []) = _
    rw [if_pos hcat]
  refine ⟨?_, ?_, ?_⟩
  · intro i hi j hj
    rw [hdict] at hi hj
    rw [hdict]
    rw [List.getD_eq_getElem _ [] hi, List.getD_eq_getElem _ [] hj]
    exact sorted_nodup_lt_iff (finalizeDictionary_sorted _)
      (finalizeDictionary_nodup _) hi hj
  · rw [hdict]
    exact finalizeDictionary_nodup _
  · intro t
    rw [hdict, mem_finalizeDictionary]
    unfold termsOfRows
    rw [List.mem_map]

theorem claim_dictionary_ordering_witness :
    ((⟨[1], .str⟩ : ColumnKey),
        buildColumn .str (rowsFor wTraceDict ⟨[1], .str⟩ 5)) ∈
        (serializeColumnar wTraceDict 5).columns ∧
      (ColumnKey.cat ⟨[1], .str⟩ = .str ∨ ColumnKey.cat ⟨[1], .str⟩ = .bytes) ∧
      ((∀ i, i < (buildColumn .str (rowsFor wTraceDict ⟨[1], .str⟩ 5)).dict.length →
        ∀ j, j < (buildColumn .str (rowsFor wTraceDict ⟨[1], .str⟩ 5)).dict.length →
          (bytesLtB
            ((buildColumn .str (rowsFor wTraceDict ⟨[1], .str⟩ 5)).dict.getD i [])
            ((buildColumn .str (rowsFor wTraceDict ⟨[1], .str⟩ 5)).dict.getD j []) =
              true ↔ i < j)) ∧
        (buildColumn .str (rowsFor wTraceDict ⟨[1], .str⟩ 5)).dict.Nodup ∧
        (∀ t, t ∈ (buildColumn .str (rowsFor wTraceDict ⟨[1], .str⟩ 5)).dict ↔
          ∃ v ∈ (rowsFor wTraceDict ⟨[1], .str⟩ 5).flatten,
            v.termPayload = t)) :=
  ⟨by decide, by decide, claim_dictionary_ordering (by decide) (by decide)⟩

/-- C7: the serialized column set is exactly the set of (name, type-category)
pairs observed in the trace, with one column per pair, and each column's
stored type belongs to its own category. -/
theorem claim_distinct_columns_per_category (trace : List Record) (n : Nat) :
    (listColumns (serializeColumnar trace n)).Nodup ∧
      (∀ k, k ∈ listColumns (serializeColumnar trace n) ↔
        ∃ rec ∈ trace, rec.key = k) ∧
      (∀ k col, (k, col) ∈ (serializeColumnar trace n).columns →
        col.typ.category = k.cat) := by
  refine ⟨listColumns_nodup trace n, ?_, ?_⟩
  · intro k
    rw [listColumns_serializeColumnar, mem_sortKeys, mem_observedKeys]
  · intro k col hmem
    obtain ⟨hcol, -⟩ := mem_columns_serialize hmem
    have htyp : col.typ = columnTypeFor k.cat
        (inferNumericalType (numsOfRows (rowsFor trace k n))) := by
      rw [hcol]
      rfl
    rw [htyp, columnTypeFor_category]

/-- C8: two writers receiving the same multiset of (row, name, value) records
in any two orders and serializing with the same `num_rows` produce identical
`list_columns` directories; the directory is sorted by (name, category-tag)
so the listed order is independent of insertion order. -/
theorem claim_directory_determinism {t1 t2 : List Record} (n : Nat)
    (hperm : List.Perm t1 t2) :
    listColumns (serializeColumnar t1 n) = listColumns (serializeColumnar t2 n) ∧
      List.Sorted keyLe (listColumns (serializeColumnar t1 n)) := by
  constructor
  · rw [listColumns_serializeColumnar, listColumns_serializeColumnar]
    exact sortKeys_eq_of_perm (observedKeys_perm hperm)
  · rw [listColumns_serializeColumnar]
    exact sortKeys_sorted _

theorem claim_directory_determinism_witness :
    List.Perm wTraceDict wTraceDict.reverse ∧
      (listColumns (serializeColumnar wTraceDict 5) =
        listColumns (serializeColumnar wTraceDict.reverse 5) ∧
        List.Sorted keyLe (listColumns (serializeColumnar wTraceDict 5))) :=
  ⟨by decide, claim_directory_determinism 5 (by decide)⟩

/-- C9: applying `first` (or `values_for_doc`) to any row index at or past
the declared `num_rows` of an opened column is total and yields the empty
result rather than an error. -/
theorem claim_first_past_num_rows {trace : List Record} {n : Nat}
    {k : ColumnKey} {col : SColumn}
    (hmem : (k, col) ∈ (serializeColumnar trace n).columns) {row : Nat}
    (hrow : n ≤ row) :
    firstCell col row = none ∧ valuesForRow col row = [] := by
  obtain ⟨hcol, -⟩ := mem_columns_serialize hmem
  have hv : valuesForRow col row = [] := by
    rw [hcol, valuesForRow_buildColumn, rowsFor_getD_ge hrow]
    rfl
  exact ⟨by rw [firstCell, hv]; rfl, hv⟩

theorem claim_first_past_num_rows_witness :
    ((⟨[5], .numerical⟩ : ColumnKey),
        buildColumn .numerical (rowsFor wTraceNum ⟨[5], .numerical⟩ 6)) ∈
        (serializeColumnar wTraceNum 6).columns ∧
      (6 : Nat) ≤ 6 ∧
      (firstCell (buildColumn .numerical (rowsFor wTraceNum ⟨[5], .numerical⟩ 6))
          6 = none ∧
        valuesForRow
          (buildColumn .numerical (rowsFor wTraceNum ⟨[5], .numerical⟩ 6)) 6 =
          []) :=
  ⟨by decide, by decide,
    @claim_first_past_num_rows wTraceNum 6 ⟨[5], ColumnTypeCategory.numerical⟩
      (buildColumn .numerical (rowsFor wTraceNum ⟨[5], .numerical⟩ 6))
      (by decide) 6 (by decide)⟩

/-- C10: the alphanumeric-only filter stream yields exactly the subsequence
of underlying tokens whose text consists entirely of ASCII alphanumeric
characters, in original order with their fields unchanged; `advance` returns
false exactly when no matching token remains, in particular on an exhausted
tail. -/
theorem claim_alphanum_filter :
    ∀ l : List Token,
      alphaNumEmitted l = l.filter alphaNumPredicate ∧
        (alphaNumAdvance l = none ↔ l.filter alphaNumPredicate = []) ∧
        alphaNumAdvance ([] : List Token) = none :=
  fun l => ⟨alphaNumEmitted_eq_filter l, alphaNumAdvance_eq_none_iff l, rfl⟩
